import Mathlib

/-!
# Reversi engine of `src/script.js`

A shallow embedding of the game logic of `script.js` (board, capture
computation, legal moves, the move handler and the pass / game-over check),
and the properties of it that the specification states.

Conventions of the embedding.

* Cells are the three constants `EMPTY`, `BLACK`, `WHITE`; a player is a cell
  value (the script passes `BLACK` or `WHITE`).
* Coordinates are integers, because the direction scan adds `-1`.
* The board is read as `board r c` for `board[r][c]`; only rows and columns
  `0..7` exist in the script, and every read the embedded functions make with
  an in-bounds argument stays inside that square.
* `while` loops carry fuel and answer `none` when it runs out; for the
  direction scan eight units are enough at every in-bounds square
  (`calculateFlipsFuel_enough`).
* `handleMove` is an `async` function: `handleMoveBegin` is the part that runs
  up to `await playFlipSequence(...)`, `handleMoveEnd` the part that runs after
  it, and `handleMove` the two in sequence with nothing in between.
* `setTimeout` callbacks are returned as a list of `Task`s.
* `Math.random()` is a binary64 number given as a rational (`IsDouble`); its
  product with a length is rounded to binary64 (`roundDouble`) before
  `Math.floor`.
-/

namespace Reversi

/-- Cell values: the constants `EMPTY = 0`, `BLACK = 1`, `WHITE = 2`. -/
inductive Cell
  | EMPTY
  | BLACK
  | WHITE
  deriving DecidableEq, Repr

open Cell

/-- The constant `BOARD_SIZE`. -/
def BOARD_SIZE : Int := 8

/-- A position object `{ r, c }`. -/
structure Pos where
  r : Int
  c : Int
  deriving DecidableEq, Repr

/-- The variable `board`, read as `board r c`. -/
abbrev Board := Int → Int → Cell

/-- The assignment `board[r][c] = v`. -/
def setCell (b : Board) (r c : Int) (v : Cell) : Board :=
  fun r' c' => if r' = r ∧ c' = c then v else b r' c'

/-- The bounds test `r >= 0 && r < BOARD_SIZE && c >= 0 && c < BOARD_SIZE`. -/
def inBounds (r c : Int) : Bool :=
  decide (r ≥ 0) && decide (r < BOARD_SIZE) && decide (c ≥ 0) && decide (c < BOARD_SIZE)

/-- The array `dirs` of `calculateFlips`: NW, N, NE, W, E, SW, S, SE. -/
def dirs : List (Int × Int) :=
  [(-1, -1), (-1, 0), (-1, 1), (0, -1), (0, 1), (1, -1), (1, 0), (1, 1)]

/-- The expression `player === BLACK ? WHITE : BLACK`. -/
def opponentOf (player : Cell) : Cell :=
  if player = BLACK then WHITE else BLACK

/-- The `while` loop of `calculateFlips` for one direction `d`, started at
`(r, c)` with the candidate run `temp`; answers the final `r`, `c` and `temp`,
or `none` when the fuel is used up before the loop condition fails. -/
def walk (b : Board) (opponent : Cell) (d : Int × Int) :
    Nat → Int → Int → List Pos → Option (Int × Int × List Pos)
  | 0, _, _, _ => none
  | fuel + 1, r, c, temp =>
    if inBounds r c && decide (b r c = opponent) then
      walk b opponent d fuel (r + d.1) (c + d.2) (temp ++ [⟨r, c⟩])
    else
      some (r, c, temp)

/-- One iteration of `for (let d of dirs)` in `calculateFlips`: the scan of
direction `d` and the conditional `res.push(...temp)`. -/
def scanDir (fuel : Nat) (b : Board) (row col : Int) (player : Cell)
    (res : List Pos) (d : Int × Int) : Option (List Pos) :=
  match walk b (opponentOf player) d fuel (row + d.1) (col + d.2) [] with
  | none => none
  | some (r, c, temp) =>
    if decide (temp.length > 0) && inBounds r c && decide (b r c = player) then
      some (res ++ temp)
    else
      some res

/-- The function `calculateFlips`, with the fuel given to each `while` loop. -/
def calculateFlipsFuel (fuel : Nat) (b : Board) (row col : Int) (player : Cell) :
    Option (List Pos) :=
  dirs.foldlM (scanDir fuel b row col player) []

/-- The function `calculateFlips(row, col, player)` on board `b`. Each scan gets
eight units of fuel, which is enough at every in-bounds `(row, col)`. -/
def calculateFlips (b : Board) (row col : Int) (player : Cell) : List Pos :=
  (calculateFlipsFuel 8 b row col player).getD []

/-- The function `isValidMove(r, c, player)`. -/
def isValidMove (b : Board) (r c : Int) (player : Cell) : Bool :=
  if b r c ≠ EMPTY then false
  else decide ((calculateFlips b r c player).length > 0)

/-- The row and column indices `0, 1, ..., BOARD_SIZE - 1` of the `for` loops. -/
def indices : List Int := (List.range 8).map Int.ofNat

/-- The function `getValidMoves(player)`: two nested `for` loops that push
`{ r, c }` whenever `isValidMove(r, c, player)`. -/
def getValidMoves (b : Board) (player : Cell) : List Pos :=
  indices.foldl (fun moves r =>
    indices.foldl (fun moves c =>
      if isValidMove b r c player then moves ++ [⟨r, c⟩] else moves) moves) []

/-- The board built by `initGame`. -/
def initialBoard : Board :=
  setCell (setCell (setCell (setCell (fun _ _ => EMPTY) 3 3 WHITE) 3 4 BLACK) 4 3 BLACK) 4 4 WHITE

/-- The script's variables, together with the parts of the page it reads back:
the two score texts written by `renderBoard` and read by `checkGameOver`, the
checkbox `chkComputer.checked`, and `rdoBasic && rdoBasic.checked`. -/
structure State where
  board : Board
  currentPlayer : Cell
  gameActive : Bool
  isAnimating : Bool
  blackWins : Nat
  whiteWins : Nat
  scoreBlack : Nat
  scoreWhite : Nat
  chkComputer : Bool
  rdoBasic : Bool

/-- Callbacks the script leaves pending. -/
inductive Task
  /-- The call `setTimeout(computerTurn, 800)`. -/
  | computerTurn
  /-- The pass callback of `checkGameOver`, which closes over `opponent`. -/
  | pass (opponent : Cell)
  /-- The game-over `alert` of `checkGameOver`. -/
  | gameOverAlert
  /-- The rest of `handleMove` after `await playFlipSequence(flips, ...)`. -/
  | resumeMove (flips : List Pos)
  deriving DecidableEq

/-- The counters `b` and `w` of `renderBoard` after its two nested loops. -/
def renderCounts (b : Board) : Nat × Nat :=
  indices.foldl (fun acc r =>
    indices.foldl (fun acc c =>
      let val := b r c
      let acc1 := if val = BLACK then (acc.1 + 1, acc.2) else acc
      if val = WHITE then (acc1.1, acc1.2 + 1) else acc1) acc) (0, 0)

/-- The function `renderBoard`: of its effects only the two score texts are
state that the script reads again. -/
def renderBoard (s : State) : State :=
  { s with scoreBlack := (renderCounts s.board).1, scoreWhite := (renderCounts s.board).2 }

/-- The function `initGame`; the win counters and the page inputs are not
assigned. -/
def initGame (s : State) : State :=
  renderBoard { s with board := initialBoard, currentPlayer := BLACK,
                       gameActive := true, isAnimating := false }

/-- The function `checkGameOver`: the new state, the returned boolean and the
callback it schedules. -/
def checkGameOver (s : State) : State × Bool × List Task :=
  let p1Moves := getValidMoves s.board s.currentPlayer
  if p1Moves.length > 0 then (s, false, [])
  else
    let opponent := if s.currentPlayer = BLACK then WHITE else BLACK
    let p2Moves := getValidMoves s.board opponent
    if p2Moves.length = 0 then
      let s1 := { s with gameActive := false }
      let b := s1.scoreBlack
      let w := s1.scoreWhite
      let s2 :=
        if b > w then { s1 with blackWins := s1.blackWins + 1 }
        else if w > b then { s1 with whiteWins := s1.whiteWins + 1 }
        else s1
      (s2, true, [Task.gameOverAlert])
    else
      (s, false, [Task.pass opponent])

/-- Lines 86 to 100 of `handleMove`: the two guards, `isAnimating = true`,
`board[r][c] = currentPlayer` and `flips = calculateFlips(r, c, currentPlayer)`.
`none` is the early `return`. -/
def handleMoveBegin (s : State) (r c : Int) : Option (State × List Pos) :=
  if !s.gameActive || s.isAnimating then none
  else if !isValidMove s.board r c s.currentPlayer then none
  else
    let s1 := { s with isAnimating := true }
    let s2 := { s1 with board := setCell s1.board r c s1.currentPlayer }
    let flips := calculateFlips s2.board r c s2.currentPlayer
    some (s2, flips)

/-- Line 108 of `handleMove`, run when the awaited playback has finished:
`flips.forEach(p => board[p.r][p.c] = currentPlayer)`. -/
def applyFlips (s : State) (flips : List Pos) : State :=
  { s with board := flips.foldl (fun b p => setCell b p.r p.c s.currentPlayer) s.board }

/-- Lines 111 to 121 of `handleMove`: switch the player, clear the lock, render,
check for the end of the game and schedule the computer. -/
def handleMoveTail (s : State) : State × List Task :=
  let s1 := { s with currentPlayer := if s.currentPlayer = BLACK then WHITE else BLACK }
  let s2 := { s1 with isAnimating := false }
  let s3 := renderBoard s2
  let (s4, over, tasks) := checkGameOver s3
  if over then (s4, tasks)
  else if decide (s4.currentPlayer = WHITE) && s4.chkComputer && s4.gameActive then
    (s4, tasks ++ [Task.computerTurn])
  else (s4, tasks)

/-- The part of `handleMove` after `await playFlipSequence(flips, ...)`. -/
def handleMoveEnd (s : State) (flips : List Pos) : State × List Task :=
  handleMoveTail (applyFlips s flips)

/-- A call of `handleMove(r, c)` up to the point where it gives control back:
either it returns at a guard, or it suspends at the `await` with the rest
pending, or (no flips) it runs to its end. -/
def handleMoveCall (s : State) (r c : Int) : State × List Task :=
  match handleMoveBegin s r c with
  | none => (s, [])
  | some (s1, flips) =>
    if flips.length > 0 then (s1, [Task.resumeMove flips])
    else handleMoveTail s1

/-- The function `handleMove(r, c)` run to completion with nothing else
happening during the playback. -/
def handleMove (s : State) (r c : Int) : State × List Task :=
  match handleMoveBegin s r c with
  | none => (s, [])
  | some (s1, flips) =>
    if flips.length > 0 then handleMoveEnd s1 flips
    else handleMoveTail s1

/-- The rational `x` is a finite non-negative IEEE 754 binary64 number, the
kind of value `Math.random()` returns: a numerator below `2^53` times a power
of two in the binary64 exponent range. -/
def IsDouble (x : ℚ) : Prop :=
  ∃ (m : Nat) (e : Int), m < 2 ^ 53 ∧ -1074 ≤ e ∧ e ≤ 971 ∧ x = (m : ℚ) * (2 : ℚ) ^ e

/-- The exponent of the spacing of the binary64 numbers around `x > 0`:
`2^(⌊log2 x⌋ - 52)`, and `2^-1074` in the subnormal range. -/
def ulpExp (x : ℚ) : Int :=
  max (-1074) (Int.log 2 x - 52)

/-- Rounding to the nearest integer, ties to the even one. -/
def roundHalfEven (q : ℚ) : Int :=
  let f := Int.floor q
  let r := q - (f : ℚ)
  if r < 1 / 2 then f
  else if 1 / 2 < r then f + 1
  else if f % 2 = 0 then f else f + 1

/-- The binary64 result of an arithmetic operation whose exact value is the
non-negative rational `x` (round to nearest, ties to even; no overflow at the
sizes that occur here). -/
def roundDouble (x : ℚ) : ℚ :=
  if x ≤ 0 then 0
  else (roundHalfEven (x / (2 : ℚ) ^ ulpExp x) : ℚ) * (2 : ℚ) ^ ulpExp x

/-- The index `Math.floor(Math.random() * n)` for the value `rnd` of
`Math.random()`: the product is rounded to binary64 before the floor. -/
def randomIndex (rnd : ℚ) (n : Nat) : Nat :=
  (Int.floor (roundDouble (rnd * (n : ℚ)))).toNat

/-- The test `(m.r === 0 || m.r === 7) && (m.c === 0 || m.c === 7)`. -/
def isCorner (m : Pos) : Bool :=
  (decide (m.r = 0) || decide (m.r = 7)) && (decide (m.c = 0) || decide (m.c = 7))

/-- The choice of `bestMove` in `computerTurn` among the non-empty `moves`;
`none` stands for an `undefined` array element. -/
def chooseMove (s : State) (rnd : ℚ) (moves : List Pos) : Option Pos :=
  if s.rdoBasic then moves.get? (randomIndex rnd moves.length)
  else
    let val := fun (m : Pos) => (calculateFlips s.board m.r m.c WHITE).length
    let maxVal := (moves.map val).foldl max 0
    let corners := moves.filter isCorner
    if corners.length > 0 then corners.get? (randomIndex rnd corners.length)
    else (moves.filter (fun m => decide (val m = maxVal))).get? 0

/-- The function `computerTurn`, with the value `rnd` of `Math.random()`. -/
def computerTurn (s : State) (rnd : ℚ) : State × List Task :=
  if !s.gameActive then (s, [])
  else
    let moves := getValidMoves s.board WHITE
    if moves.length = 0 then
      (renderBoard { s with currentPlayer := BLACK }, [])
    else
      match chooseMove s rnd moves with
      | none => (s, [])
      | some bestMove => handleMoveCall s bestMove.r bestMove.c

/-- Lines 211 to 213, the state change of the pass callback:
`currentPlayer = opponent; renderBoard(); updateStatus()`. -/
def passResolve (s : State) (opponent : Cell) : State :=
  renderBoard { s with currentPlayer := opponent }

/-- The whole pass callback of `checkGameOver`: the pass, then line 214,
`if (currentPlayer === WHITE && chkComputer.checked) computerTurn()`. -/
def passCallback (s : State) (opponent : Cell) (rnd : ℚ) : State × List Task :=
  let s1 := passResolve s opponent
  if decide (s1.currentPlayer = WHITE) && s1.chkComputer then computerTurn s1 rnd
  else (s1, [])

/-- What a pending callback does when it fires. -/
def runTask (s : State) (rnd : ℚ) : Task → State × List Task
  | Task.computerTurn => computerTurn s rnd
  | Task.pass opponent => passCallback s opponent rnd
  | Task.gameOverAlert => (s, [])
  | Task.resumeMove flips => handleMoveEnd s flips

/-- A state as the script has it after loading: `initGame()` run on the
declared initial values, with the given page inputs. -/
def initialState (chkComputer rdoBasic : Bool) : State :=
  initGame { board := fun _ _ => EMPTY, currentPlayer := BLACK, gameActive := true,
             isAnimating := false, blackWins := 0, whiteWins := 0,
             scoreBlack := 0, scoreWhite := 0,
             chkComputer := chkComputer, rdoBasic := rdoBasic }

/-! ### The capture rule as the specification words it -/

/-- The cell `k` steps away from `(row, col)` in direction `d`. -/
def cellAt (row col : Int) (d : Int × Int) (k : Nat) : Pos :=
  ⟨row + (k : Int) * d.1, col + (k : Int) * d.2⟩

/-- Position `p` is on the board and holds `v`. -/
def holds (b : Board) (v : Cell) (p : Pos) : Bool :=
  inBounds p.r p.c && decide (b p.r p.c = v)

/-- The cells at distance `1, 2, ..., 7` from `(row, col)` in direction `d`,
nearest first. -/
def ray (row col : Int) (d : Int × Int) : List Pos :=
  (List.range' 1 7).map (cellAt row col d)

/-- The maximal run of consecutive opponent cells that starts at the cell
adjacent to `(row, col)` in direction `d`. -/
def opponentRun (b : Board) (row col : Int) (player : Cell) (d : Int × Int) : List Pos :=
  (ray row col d).takeWhile (holds b (opponentOf player))

/-- The contribution of direction `d`: the run, if it is non-empty and the cell
right after it is on the board and holds `player`; nothing otherwise. -/
def contribution (b : Board) (row col : Int) (player : Cell) (d : Int × Int) : List Pos :=
  let run := opponentRun b row col player d
  if run ≠ [] ∧ holds b player (cellAt row col d (run.length + 1)) = true then run else []

/-- The list `L` is the contribution of direction `d`, said without any scan:
for some `n`, the cells at distance `1..n` are all on the board and hold the
opponent, the cell at distance `n + 1` is not such a cell, and `L` is those `n`
cells nearest first when `n > 0` and the cell at distance `n + 1` is on the
board and holds `player`, and is empty otherwise. -/
def IsContribution (b : Board) (row col : Int) (player : Cell) (d : Int × Int)
    (L : List Pos) : Prop :=
  ∃ n : Nat,
    (∀ k, 1 ≤ k → k ≤ n → holds b (opponentOf player) (cellAt row col d k) = true) ∧
    holds b (opponentOf player) (cellAt row col d (n + 1)) = false ∧
    L = if 0 < n ∧ holds b player (cellAt row col d (n + 1)) = true
        then (List.range' 1 n).map (cellAt row col d) else []

/-- The 64 squares of the board in row-major order. -/
def positions : List Pos :=
  indices.flatMap (fun r => indices.map (fun c => (⟨r, c⟩ : Pos)))

/-- Row-major order on positions: smaller row, or same row and smaller column. -/
def rowMajorLt (p q : Pos) : Prop :=
  p.r < q.r ∨ (p.r = q.r ∧ p.c < q.c)

instance decidableRowMajorLt (p q : Pos) : Decidable (rowMajorLt p q) := by
  unfold rowMajorLt; infer_instance

/-- The specification's `count(color)`: the number of squares holding `v`. -/
def discCount (b : Board) (v : Cell) : Nat :=
  positions.countP (fun p => decide (b p.r p.c = v))

/-! ### Concrete positions used to instantiate the theorems -/

/-- A state with the given board and player to move, game active, no move in
flight, no wins yet, two-player mode. -/
def stateOn (b : Board) (player : Cell) : State :=
  renderBoard { board := b, currentPlayer := player, gameActive := true,
                isAnimating := false, blackWins := 0, whiteWins := 0,
                scoreBlack := 0, scoreWhite := 0,
                chkComputer := false, rdoBasic := false }

/-- White on `(0, 1)`, Black on `(0, 2)`: Black's move to `(0, 0)` leaves
neither colour a move. -/
def lastMoveBoard : Board :=
  setCell (setCell (fun _ _ => EMPTY) 0 1 WHITE) 0 2 BLACK

/-- White on `(0, 1)` and `(2, 1)`, Black on `(0, 2)` and `(2, 0)`: after
Black's move to `(0, 0)` White has no move and Black has one. -/
def passBoard : Board :=
  setCell (setCell (setCell (setCell (fun _ _ => EMPTY) 0 1 WHITE) 0 2 BLACK) 2 0 BLACK) 2 1 WHITE

/-- Black on `(0, 1)`, `(2, 1)`, `(2, 2)`, White on `(0, 2)`, `(2, 3)`: White can
take the corner `(0, 0)` with one flip or play `(2, 0)` with two. -/
def cornerBoard : Board :=
  setCell (setCell (setCell (setCell (setCell (fun _ _ => EMPTY) 0 1 BLACK) 0 2 WHITE)
    2 1 BLACK) 2 2 BLACK) 2 3 WHITE

/-! ### Proofs -/

theorem cellAt_succ_r (row col : Int) (d : Int × Int) (k : Nat) :
    (cellAt row col d k).r + d.1 = (cellAt row col d (k + 1)).r := by
  simp only [cellAt]; push_cast; ring

theorem cellAt_succ_c (row col : Int) (d : Int × Int) (k : Nat) :
    (cellAt row col d k).c + d.2 = (cellAt row col d (k + 1)).c := by
  simp only [cellAt]; push_cast; ring

/-- Shape of a `takeWhile` over consecutive cells of a direction. -/
theorem takeWhile_cells (p : Pos → Bool) (f : Nat → Pos) :
    ∀ (n j : Nat), ∃ m, m ≤ n ∧
      ((List.range' j n).map f).takeWhile p = (List.range' j m).map f ∧
      (∀ k, j ≤ k → k < j + m → p (f k) = true) ∧
      (m < n → p (f (j + m)) = false) := by
  intro n
  induction n with
  | zero => intro j; exact ⟨0, le_refl 0, by simp, by intro k h1 h2; omega, by intro h; omega⟩
  | succ n ih =>
    intro j
    by_cases hp : p (f j) = true
    · obtain ⟨m, hm, h1, h2, h3⟩ := ih (j + 1)
      refine ⟨m + 1, by omega, ?_, ?_, ?_⟩
      · simp [List.range'_succ, List.takeWhile_cons, hp, h1]
      · intro k hk1 hk2
        by_cases hkj : k = j
        · subst hkj; exact hp
        · exact h2 k (by omega) (by omega)
      · intro hlt
        have := h3 (by omega)
        rw [show j + (m + 1) = j + 1 + m by omega]; exact this
    · refine ⟨0, by omega, ?_, by intro k h1 h2; omega, ?_⟩
      · simp [List.range'_succ, List.takeWhile_cons, hp]
      · intro _; simpa using hp

/-- The `while` loop computes the `takeWhile` of the cells ahead, and stops on
the cell right after it, whenever the fuel covers a stretch that ends on a cell
failing the loop condition. -/
theorem walk_eq (b : Board) (opp : Cell) (row col : Int) (d : Int × Int) :
    ∀ (n fuel j : Nat) (temp : List Pos), n < fuel →
      holds b opp (cellAt row col d (j + n)) = false →
      walk b opp d fuel (cellAt row col d j).r (cellAt row col d j).c temp =
        some ((cellAt row col d
                (j + (((List.range' j n).map (cellAt row col d)).takeWhile (holds b opp)).length)).r,
              (cellAt row col d
                (j + (((List.range' j n).map (cellAt row col d)).takeWhile (holds b opp)).length)).c,
              temp ++ ((List.range' j n).map (cellAt row col d)).takeWhile (holds b opp)) := by
  intro n
  induction n with
  | zero =>
    intro fuel j temp hf hstop
    obtain ⟨fuel, rfl⟩ : ∃ k, fuel = k + 1 := ⟨fuel - 1, by omega⟩
    have hstop' : (inBounds (cellAt row col d j).r (cellAt row col d j).c &&
        decide (b (cellAt row col d j).r (cellAt row col d j).c = opp)) = false := by
      simpa [holds] using hstop
    simp [walk, hstop']
  | succ n ih =>
    intro fuel j temp hf hstop
    obtain ⟨fuel, rfl⟩ : ∃ k, fuel = k + 1 := ⟨fuel - 1, by omega⟩
    by_cases hp : holds b opp (cellAt row col d j) = true
    · have hp' : (inBounds (cellAt row col d j).r (cellAt row col d j).c &&
          decide (b (cellAt row col d j).r (cellAt row col d j).c = opp)) = true := hp
      have hstop2 : holds b opp (cellAt row col d (j + 1 + n)) = false := by
        rw [show j + 1 + n = j + (n + 1) by omega]; exact hstop
      have := ih fuel (j + 1) (temp ++ [cellAt row col d j]) (by omega) hstop2
      rw [walk, if_pos hp', cellAt_succ_r, cellAt_succ_c, this]
      simp [List.range'_succ, List.takeWhile_cons, hp]
      refine ⟨?_, ?_⟩ <;> congr 2 <;> omega
    · have hp' : (inBounds (cellAt row col d j).r (cellAt row col d j).c &&
          decide (b (cellAt row col d j).r (cellAt row col d j).c = opp)) = false := by
        simpa [holds] using hp
      rw [walk]
      simp [hp', List.range'_succ, List.takeWhile_cons, hp]

/-- Membership in `dirs`, spelled out. -/
theorem mem_dirs {d : Int × Int} (hd : d ∈ dirs) :
    d = (-1, -1) ∨ d = (-1, 0) ∨ d = (-1, 1) ∨ d = (0, -1) ∨ d = (0, 1) ∨
      d = (1, -1) ∨ d = (1, 0) ∨ d = (1, 1) := by
  simpa [dirs] using hd

/-- From an in-bounds square, the cell eight steps away is off the board in
every direction. -/
theorem far_cell_off (b : Board) (v : Cell) (row col : Int) (d : Int × Int) (hd : d ∈ dirs)
    (hrow : 0 ≤ row ∧ row < 8) (hcol : 0 ≤ col ∧ col < 8) :
    holds b v (cellAt row col d 8) = false := by
  have hin : inBounds (cellAt row col d 8).r (cellAt row col d 8).c = false := by
    rcases mem_dirs hd with h | h | h | h | h | h | h | h <;> subst h <;>
      simp [inBounds, cellAt, BOARD_SIZE] <;> omega
  simp [holds, hin]

/-- The test after the `while` loop, against the wording of `contribution`. -/
theorem scan_test (b : Board) (row col : Int) (player : Cell) (d : Int × Int)
    (res run : List Pos) :
    (if (decide (run.length > 0) &&
          inBounds (cellAt row col d (1 + run.length)).r (cellAt row col d (1 + run.length)).c &&
          decide (b (cellAt row col d (1 + run.length)).r
            (cellAt row col d (1 + run.length)).c = player)) = true
      then some (res ++ run) else some res) =
    some (res ++ if run ≠ [] ∧ holds b player (cellAt row col d (run.length + 1)) = true
      then run else []) := by
  rw [show 1 + run.length = run.length + 1 by omega]
  by_cases hrun : run = []
  · simp [hrun]
  · have hlen : 0 < run.length := List.length_pos.mpr hrun
    by_cases hend : holds b player (cellAt row col d (run.length + 1)) = true
    · have hend' := hend
      simp only [holds] at hend'
      simp [hrun, hlen, hend, hend', Bool.and_assoc]
    · have hend' := hend
      simp only [holds] at hend'
      simp [hrun, hlen, hend, hend', Bool.and_assoc]

/-- One direction of the scan adds exactly that direction's contribution. -/
theorem scanDir_eq (fuel : Nat) (hfuel : 8 ≤ fuel) (b : Board) (row col : Int) (player : Cell)
    (res : List Pos) (d : Int × Int) (hd : d ∈ dirs)
    (hrow : 0 ≤ row ∧ row < 8) (hcol : 0 ≤ col ∧ col < 8) :
    scanDir fuel b row col player res d = some (res ++ contribution b row col player d) := by
  have h1r : row + d.1 = (cellAt row col d 1).r := by simp [cellAt]
  have h1c : col + d.2 = (cellAt row col d 1).c := by simp [cellAt]
  have hw := walk_eq b (opponentOf player) row col d 7 fuel 1 [] (by omega)
    (far_cell_off b (opponentOf player) row col d hd hrow hcol)
  unfold scanDir
  rw [h1r, h1c, hw]
  simp only [List.nil_append, contribution, opponentRun, ray]
  exact scan_test b row col player d res _

/-- Folding the scan over a list of directions appends their contributions. -/
theorem foldlM_scanDir (fuel : Nat) (hfuel : 8 ≤ fuel) (b : Board) (row col : Int)
    (player : Cell) (hrow : 0 ≤ row ∧ row < 8) (hcol : 0 ≤ col ∧ col < 8) :
    ∀ (l : List (Int × Int)) (res : List Pos), (∀ d ∈ l, d ∈ dirs) →
      l.foldlM (scanDir fuel b row col player) res =
        some (res ++ (l.map (contribution b row col player)).flatten) := by
  intro l
  induction l with
  | nil => intro res _; simp
  | cons d l ih =>
    intro res hl
    have hd : d ∈ dirs := hl d (List.mem_cons_self d l)
    rw [List.foldlM_cons, scanDir_eq fuel hfuel b row col player res d hd hrow hcol]
    simp only [Option.bind_eq_bind, Option.some_bind]
    rw [ih _ (fun x hx => hl x (List.mem_cons_of_mem d hx))]
    simp [List.append_assoc]

/-- With at least eight units of fuel the scan of an in-bounds square returns,
and what it returns is the concatenation of the eight contributions. -/
theorem calculateFlipsFuel_enough (fuel : Nat) (hfuel : 8 ≤ fuel) (b : Board) (row col : Int)
    (player : Cell) (hrow : 0 ≤ row ∧ row < 8) (hcol : 0 ≤ col ∧ col < 8) :
    calculateFlipsFuel fuel b row col player =
      some ((dirs.map (contribution b row col player)).flatten) := by
  unfold calculateFlipsFuel
  rw [foldlM_scanDir fuel hfuel b row col player hrow hcol dirs [] (fun d hd => hd)]
  simp

/-- The function `calculateFlips` at an in-bounds square, in closed form. -/
theorem calculateFlips_eq (b : Board) (row col : Int) (player : Cell)
    (hrow : 0 ≤ row ∧ row < 8) (hcol : 0 ≤ col ∧ col < 8) :
    calculateFlips b row col player = (dirs.map (contribution b row col player)).flatten := by
  unfold calculateFlips
  rw [calculateFlipsFuel_enough 8 (le_refl 8) b row col player hrow hcol]
  rfl

/-- The run of a direction: its shape, and that it is maximal. -/
theorem opponentRun_shape (b : Board) (row col : Int) (player : Cell) (d : Int × Int)
    (hd : d ∈ dirs) (hrow : 0 ≤ row ∧ row < 8) (hcol : 0 ≤ col ∧ col < 8) :
    ∃ n, n ≤ 7 ∧ opponentRun b row col player d = (List.range' 1 n).map (cellAt row col d) ∧
      (∀ k, 1 ≤ k → k ≤ n → holds b (opponentOf player) (cellAt row col d k) = true) ∧
      holds b (opponentOf player) (cellAt row col d (n + 1)) = false := by
  obtain ⟨m, hm, h1, h2, h3⟩ :=
    takeWhile_cells (holds b (opponentOf player)) (cellAt row col d) 7 1
  refine ⟨m, hm, h1, fun k hk1 hk2 => h2 k hk1 (by omega), ?_⟩
  by_cases hlt : m < 7
  · have := h3 hlt
    rw [show m + 1 = 1 + m by omega]; exact this
  · have hm7 : m = 7 := by omega
    subst hm7
    exact far_cell_off b (opponentOf player) row col d hd hrow hcol

/-- The computed contribution of a direction is the contribution in the sense
of `IsContribution`. -/
theorem contribution_isContribution (b : Board) (row col : Int) (player : Cell)
    (d : Int × Int) (hd : d ∈ dirs) (hrow : 0 ≤ row ∧ row < 8) (hcol : 0 ≤ col ∧ col < 8) :
    IsContribution b row col player d (contribution b row col player d) := by
  obtain ⟨n, _, hrun, hall, hstop⟩ := opponentRun_shape b row col player d hd hrow hcol
  refine ⟨n, hall, hstop, ?_⟩
  unfold contribution
  simp only [hrun, List.length_map, List.length_range']
  by_cases hn : n = 0
  · subst hn; simp
  · have hne : (List.range' 1 n).map (cellAt row col d) ≠ [] := by
      intro h
      have := congrArg List.length h
      simp at this
      exact hn this
    have hpos : 0 < n := Nat.pos_of_ne_zero hn
    simp [hne, hpos]

/-- C1. For every board, every in-bounds position `(row, col)` and every player,
the scan of `calculateFlips` returns (with eight or more units of fuel for each
`while` loop) and its result is the concatenation, over the directions in the
order NW, N, NE, W, E, SW, S, SE, of the direction's contribution: the maximal
run of consecutive opponent cells starting next to `(row, col)`, nearest first,
when that run is non-empty and the cell right after it is in bounds and holds
`player`, and the empty list otherwise. -/
theorem calculateFlips_spec (b : Board) (row col : Int) (player : Cell)
    (hrow : 0 ≤ row ∧ row < 8) (hcol : 0 ≤ col ∧ col < 8) :
    (∀ fuel, 8 ≤ fuel →
        calculateFlipsFuel fuel b row col player = some (calculateFlips b row col player)) ∧
    dirs = [(-1, -1), (-1, 0), (-1, 1), (0, -1), (0, 1), (1, -1), (1, 0), (1, 1)] ∧
    calculateFlips b row col player = (dirs.map (contribution b row col player)).flatten ∧
    ∀ d ∈ dirs, IsContribution b row col player d (contribution b row col player d) := by
  refine ⟨fun fuel hfuel => ?_, rfl, calculateFlips_eq b row col player hrow hcol,
    fun d hd => contribution_isContribution b row col player d hd hrow hcol⟩
  rw [calculateFlipsFuel_enough fuel hfuel b row col player hrow hcol,
    calculateFlips_eq b row col player hrow hcol]

/-- Two nested `for` loops over the indices visit the squares in row-major
order. -/
theorem nested_foldl {α : Type} (g : α → Pos → α) (init : α) :
    indices.foldl (fun acc r => indices.foldl (fun acc c => g acc ⟨r, c⟩) acc) init =
      positions.foldl g init := by
  unfold positions
  rw [List.flatMap, List.foldl_flatten, List.foldl_map]
  congr 1

/-- A loop that pushes the elements passing a test builds the filtered list. -/
theorem foldl_push_filter (p : Pos → Bool) :
    ∀ (l : List Pos) (init : List Pos),
      l.foldl (fun acc x => if p x = true then acc ++ [x] else acc) init =
        init ++ l.filter p := by
  intro l
  induction l with
  | nil => intro init; simp
  | cons x l ih =>
    intro init
    rw [List.foldl_cons, ih]
    by_cases hx : p x = true
    · simp [hx, List.filter_cons]
    · simp [hx, List.filter_cons]

/-- The function `getValidMoves` is the filter of the squares by `isValidMove`. -/
theorem getValidMoves_eq (b : Board) (player : Cell) :
    getValidMoves b player = positions.filter (fun p => isValidMove b p.r p.c player) := by
  unfold getValidMoves
  rw [nested_foldl (fun moves p => if isValidMove b p.r p.c player = true then moves ++ [p] else moves)]
  rw [foldl_push_filter (fun p => isValidMove b p.r p.c player)]
  simp

theorem mem_indices (r : Int) : r ∈ indices ↔ 0 ≤ r ∧ r ≤ 7 := by
  unfold indices
  simp only [List.mem_map, List.mem_range]
  constructor
  · rintro ⟨k, hk, rfl⟩
    simp only [Int.ofNat_eq_coe]
    omega
  · rintro ⟨h0, h7⟩
    refine ⟨r.toNat, by omega, ?_⟩
    simp only [Int.ofNat_eq_coe]
    omega

theorem mem_positions (p : Pos) :
    p ∈ positions ↔ (0 ≤ p.r ∧ p.r ≤ 7) ∧ (0 ≤ p.c ∧ p.c ≤ 7) := by
  unfold positions
  simp only [List.mem_flatMap, List.mem_map]
  constructor
  · rintro ⟨r, hr, c, hc, rfl⟩
    exact ⟨(mem_indices r).mp hr, (mem_indices c).mp hc⟩
  · rintro ⟨hr, hc⟩
    exact ⟨p.r, (mem_indices p.r).mpr hr, p.c, (mem_indices p.c).mpr hc, rfl⟩

theorem positions_pairwise : positions.Pairwise rowMajorLt := by
  decide

theorem rowMajorLt_ne (p q : Pos) (h : rowMajorLt p q) : p ≠ q := by
  rintro rfl
  rcases h with h | ⟨_, h⟩ <;> omega

theorem positions_nodup : positions.Nodup :=
  positions_pairwise.imp (fun {p q} h => rowMajorLt_ne p q h)

/-- The function `isValidMove`, as a proposition. -/
theorem isValidMove_iff (b : Board) (r c : Int) (player : Cell) :
    isValidMove b r c player = true ↔ b r c = EMPTY ∧ calculateFlips b r c player ≠ [] := by
  unfold isValidMove
  by_cases h : b r c = EMPTY
  · simp [h, List.length_pos]
  · simp [h]

/-- C4. For every board and player, `getValidMoves(player)` lists exactly the
positions `(r, c)` with `0 <= r, c <= 7` for which `isValidMove(r, c, player)`
holds, that is, whose cell is Empty and whose `calculateFlips` is non-empty;
the list is in strictly increasing row-major order, so each such position
appears exactly once. -/
theorem getValidMoves_spec (b : Board) (player : Cell) :
    (∀ p : Pos, p ∈ getValidMoves b player ↔
      ((0 ≤ p.r ∧ p.r ≤ 7) ∧ (0 ≤ p.c ∧ p.c ≤ 7)) ∧ isValidMove b p.r p.c player = true) ∧
    (∀ r c : Int, isValidMove b r c player = true ↔
      b r c = EMPTY ∧ calculateFlips b r c player ≠ []) ∧
    (getValidMoves b player).Pairwise rowMajorLt ∧
    (∀ p : Pos, p ∈ getValidMoves b player → (getValidMoves b player).count p = 1) := by
  have hpw : (getValidMoves b player).Pairwise rowMajorLt := by
    rw [getValidMoves_eq]
    exact positions_pairwise.filter _
  have hnd : (getValidMoves b player).Nodup :=
    hpw.imp (fun {p q} h => rowMajorLt_ne p q h)
  refine ⟨fun p => ?_, fun r c => isValidMove_iff b r c player, hpw, fun p hp => ?_⟩
  · rw [getValidMoves_eq, List.mem_filter, mem_positions]
  · exact List.count_eq_one_of_mem hnd hp

/-! ### Facts about the flips of an in-bounds square -/

/-- Every cell of a contribution lies on the direction's ray, is on the board
and holds the opponent. -/
theorem mem_contribution {b : Board} {row col : Int} {player : Cell} {d : Int × Int}
    {p : Pos} (hp : p ∈ contribution b row col player d) :
    p ∈ ray row col d ∧ holds b (opponentOf player) p = true := by
  unfold contribution at hp
  simp only at hp
  split at hp
  · exact ⟨(List.takeWhile_sublist _).subset hp, List.mem_takeWhile_imp hp⟩
  · simp at hp

theorem contribution_sublist (b : Board) (row col : Int) (player : Cell) (d : Int × Int) :
    List.Sublist (contribution b row col player d) (ray row col d) := by
  unfold contribution
  simp only
  split
  · exact List.takeWhile_sublist _
  · exact List.nil_sublist _

theorem flatten_map_sublist {α β : Type} (f g : α → List β)
    (h : ∀ x, List.Sublist (f x) (g x)) :
    ∀ l : List α, List.Sublist (l.map f).flatten (l.map g).flatten := by
  intro l
  induction l with
  | nil => simp
  | cons x l ih =>
    simp only [List.map_cons, List.flatten_cons]
    exact (h x).append ih

/-- The 56 cells of the eight rays from `(0, 0)` are distinct. -/
theorem rays_origin_nodup : ((dirs.map (ray 0 0)).flatten).Nodup := by
  decide

theorem origin_not_mem_rays : (⟨0, 0⟩ : Pos) ∉ (dirs.map (ray 0 0)).flatten := by
  decide

/-- The rays from `(row, col)` are the rays from `(0, 0)`, shifted. -/
theorem rays_shift (row col : Int) :
    (dirs.map (ray row col)).flatten =
      ((dirs.map (ray 0 0)).flatten).map (fun p => (⟨row + p.r, col + p.c⟩ : Pos)) := by
  rw [List.map_flatten, List.map_map]
  apply congrArg
  apply List.map_congr_left
  intro d _
  simp [ray, cellAt, List.map_map, Function.comp_def]

theorem shift_injective (row col : Int) :
    Function.Injective (fun p : Pos => (⟨row + p.r, col + p.c⟩ : Pos)) := by
  intro p q h
  cases p; cases q
  simp only [Pos.mk.injEq] at h ⊢
  omega

/-- The rays from a square are pairwise disjoint and free of repetitions. -/
theorem rays_nodup (row col : Int) : ((dirs.map (ray row col)).flatten).Nodup := by
  rw [rays_shift]
  exact rays_origin_nodup.map (shift_injective row col)

/-- No ray from a square contains the square itself. -/
theorem self_not_mem_rays (row col : Int) :
    (⟨row, col⟩ : Pos) ∉ (dirs.map (ray row col)).flatten := by
  rw [rays_shift]
  intro h
  obtain ⟨q, hq, hqe⟩ := List.mem_map.mp h
  simp only [Pos.mk.injEq] at hqe
  have : q = ⟨0, 0⟩ := by
    cases q
    simp only [Pos.mk.injEq]
    simp only at hqe
    omega
  subst this
  exact origin_not_mem_rays hq

theorem calculateFlips_sublist_rays (b : Board) (row col : Int) (player : Cell)
    (hrow : 0 ≤ row ∧ row < 8) (hcol : 0 ≤ col ∧ col < 8) :
    List.Sublist (calculateFlips b row col player) (dirs.map (ray row col)).flatten := by
  rw [calculateFlips_eq b row col player hrow hcol]
  exact flatten_map_sublist _ _ (contribution_sublist b row col player) dirs

theorem calculateFlips_nodup (b : Board) (row col : Int) (player : Cell)
    (hrow : 0 ≤ row ∧ row < 8) (hcol : 0 ≤ col ∧ col < 8) :
    (calculateFlips b row col player).Nodup :=
  (calculateFlips_sublist_rays b row col player hrow hcol).nodup (rays_nodup row col)

theorem self_not_mem_calculateFlips (b : Board) (row col : Int) (player : Cell)
    (hrow : 0 ≤ row ∧ row < 8) (hcol : 0 ≤ col ∧ col < 8) :
    (⟨row, col⟩ : Pos) ∉ calculateFlips b row col player :=
  fun h => self_not_mem_rays row col
    ((calculateFlips_sublist_rays b row col player hrow hcol).subset h)

/-- Every flip is on the board and holds the opponent's colour. -/
theorem holds_of_mem_calculateFlips (b : Board) (row col : Int) (player : Cell)
    (hrow : 0 ≤ row ∧ row < 8) (hcol : 0 ≤ col ∧ col < 8) (p : Pos)
    (hp : p ∈ calculateFlips b row col player) :
    holds b (opponentOf player) p = true := by
  rw [calculateFlips_eq b row col player hrow hcol] at hp
  obtain ⟨l, hl, hpl⟩ := List.mem_flatten.mp hp
  obtain ⟨d, _, rfl⟩ := List.mem_map.mp hl
  exact (mem_contribution hpl).2

theorem holds_iff (b : Board) (v : Cell) (p : Pos) :
    holds b v p = true ↔ ((0 ≤ p.r ∧ p.r ≤ 7) ∧ (0 ≤ p.c ∧ p.c ≤ 7)) ∧ b p.r p.c = v := by
  simp only [holds, inBounds, BOARD_SIZE, Bool.and_eq_true, decide_eq_true_eq]
  constructor
  · rintro ⟨⟨⟨⟨h1, h2⟩, h3⟩, h4⟩, h5⟩
    exact ⟨⟨⟨h1, by omega⟩, ⟨h3, by omega⟩⟩, h5⟩
  · rintro ⟨⟨⟨h1, h2⟩, ⟨h3, h4⟩⟩, h5⟩
    exact ⟨⟨⟨⟨h1, by omega⟩, h3⟩, by omega⟩, h5⟩

/-! ### Writing cells -/

theorem setCell_same (b : Board) (r c : Int) (v : Cell) : setCell b r c v r c = v := by
  simp [setCell]

theorem setCell_other (b : Board) (r c : Int) (v : Cell) (r' c' : Int)
    (h : (⟨r', c'⟩ : Pos) ≠ ⟨r, c⟩) : setCell b r c v r' c' = b r' c' := by
  unfold setCell
  rw [if_neg]
  rintro ⟨h1, h2⟩
  exact h (by rw [h1, h2])

/-- The board after `flips.forEach(p => board[p.r][p.c] = v)`. -/
theorem foldl_setCell (v : Cell) :
    ∀ (flips : List Pos) (b : Board) (r c : Int),
      (flips.foldl (fun b p => setCell b p.r p.c v) b) r c =
        if (⟨r, c⟩ : Pos) ∈ flips then v else b r c := by
  intro flips
  induction flips with
  | nil => intro b r c; simp
  | cons p flips ih =>
    intro b r c
    rw [List.foldl_cons, ih]
    by_cases hmem : (⟨r, c⟩ : Pos) ∈ flips
    · simp [hmem]
    · by_cases hp : (⟨r, c⟩ : Pos) = p
      · subst hp
        simp [setCell_same]
      · rw [if_neg hmem, if_neg (by simp [hmem, hp])]
        exact setCell_other b p.r p.c v r c (by cases p; simpa using hp)

theorem holds_setCell (b : Board) (r c : Int) (v w : Cell) (p : Pos) (h : p ≠ ⟨r, c⟩) :
    holds (setCell b r c v) w p = holds b w p := by
  unfold holds
  rw [setCell_other b r c v p.r p.c (by cases p; simpa using h)]

theorem takeWhile_congr_mem {α : Type} (p q : α → Bool) :
    ∀ l : List α, (∀ x ∈ l, p x = q x) → l.takeWhile p = l.takeWhile q := by
  intro l
  induction l with
  | nil => intro _; rfl
  | cons x l ih =>
    intro h
    have hx := h x (List.mem_cons_self x l)
    have hl := ih (fun y hy => h y (List.mem_cons_of_mem x hy))
    simp [List.takeWhile_cons, hx, hl]

theorem mem_ray_ne (row col : Int) (d : Int × Int) (hd : d ∈ dirs) (p : Pos)
    (hp : p ∈ ray row col d) : p ≠ ⟨row, col⟩ := by
  rintro rfl
  exact self_not_mem_rays row col
    (List.mem_flatten.mpr ⟨ray row col d, List.mem_map.mpr ⟨d, hd, rfl⟩, hp⟩)

theorem cellAt_ne (row col : Int) (d : Int × Int) (hd : d ∈ dirs) (k : Nat) (hk : 1 ≤ k) :
    cellAt row col d k ≠ ⟨row, col⟩ := by
  intro h
  simp only [cellAt, Pos.mk.injEq] at h
  rcases mem_dirs hd with e | e | e | e | e | e | e | e <;> subst e <;>
    simp at h <;> omega

/-- The scan from `(row, col)` never reads the cell `(row, col)`: writing that
cell does not change the flips. -/
theorem calculateFlips_setCell_self (b : Board) (row col : Int) (v player : Cell)
    (hrow : 0 ≤ row ∧ row < 8) (hcol : 0 ≤ col ∧ col < 8) :
    calculateFlips (setCell b row col v) row col player = calculateFlips b row col player := by
  rw [calculateFlips_eq _ row col player hrow hcol, calculateFlips_eq b row col player hrow hcol]
  apply congrArg
  apply List.map_congr_left
  intro d hd
  have hrun : opponentRun (setCell b row col v) row col player d =
      opponentRun b row col player d := by
    unfold opponentRun
    apply takeWhile_congr_mem
    intro x hx
    exact holds_setCell b row col v _ x (mem_ray_ne row col d hd x hx)
  unfold contribution
  simp only [hrun]
  rw [holds_setCell b row col v player _ (cellAt_ne row col d hd _ (by omega))]

/-! ### Counting discs -/

theorem countP_one_more (P Q : Pos → Bool) (x : Pos) (hPx : P x = false) (hQx : Q x = true)
    (hother : ∀ y, y ≠ x → Q y = P y) :
    ∀ l : List Pos, l.Nodup → x ∈ l → l.countP Q = l.countP P + 1 := by
  intro l
  induction l with
  | nil => intro _ hx; simp at hx
  | cons a l ih =>
    intro hnd hx
    have hnd' := List.nodup_cons.mp hnd
    by_cases ha : a = x
    · subst ha
      have hrest : l.countP Q = l.countP P := by
        apply List.countP_congr
        intro y hy
        have hya : y ≠ a := fun e => hnd'.1 (e ▸ hy)
        rw [hother y hya]
      simp [List.countP_cons, hPx, hQx, hrest]
    · have hxl : x ∈ l := by
        rcases List.mem_cons.mp hx with e | e
        · exact absurd e.symm ha
        · exact e
      have := ih hnd'.2 hxl
      simp [List.countP_cons, hother a ha, this]
      omega

theorem mem_positions_mk (r c : Int) (hr : 0 ≤ r ∧ r < 8) (hc : 0 ≤ c ∧ c < 8) :
    (⟨r, c⟩ : Pos) ∈ positions :=
  (mem_positions ⟨r, c⟩).mpr ⟨⟨hr.1, Int.lt_add_one_iff.mp hr.2⟩, ⟨hc.1, Int.lt_add_one_iff.mp hc.2⟩⟩

theorem setCell_at (b : Board) (r c : Int) (v : Cell) (y : Pos) :
    setCell b r c v y.r y.c = if y = ⟨r, c⟩ then v else b y.r y.c := by
  by_cases h : y = ⟨r, c⟩
  · subst h; simp [setCell_same]
  · rw [if_neg h]
    exact setCell_other b r c v y.r y.c (by cases y; simpa using h)

/-- Writing `v` on a square that did not hold `v` adds one disc of colour `v`. -/
theorem discCount_setCell_new (b : Board) (r c : Int) (v : Cell)
    (hr : 0 ≤ r ∧ r < 8) (hc : 0 ≤ c ∧ c < 8) (hold : b r c ≠ v) :
    discCount (setCell b r c v) v = discCount b v + 1 := by
  unfold discCount
  apply countP_one_more _ _ ⟨r, c⟩ _ _ _ positions positions_nodup (mem_positions_mk r c hr hc)
  · simpa using hold
  · simp [setCell_same]
  · intro y hy
    simp only [setCell_at, if_neg hy]

/-- Writing another value on a square that held `w` removes one disc of
colour `w`. -/
theorem discCount_setCell_old (b : Board) (r c : Int) (v w : Cell)
    (hr : 0 ≤ r ∧ r < 8) (hc : 0 ≤ c ∧ c < 8) (hold : b r c = w) (hne : w ≠ v) :
    discCount b w = discCount (setCell b r c v) w + 1 := by
  unfold discCount
  apply countP_one_more _ _ ⟨r, c⟩ _ _ _ positions positions_nodup (mem_positions_mk r c hr hc)
  · simpa [setCell_same] using fun e : v = w => hne e.symm
  · simpa using hold
  · intro y hy
    simp only [setCell_at, if_neg hy]

/-- Writing `v` on a square that held something other than `w` leaves the
number of discs of colour `w ≠ v` as it was. -/
theorem discCount_setCell_frame (b : Board) (r c : Int) (v w : Cell)
    (hold : b r c ≠ w) (hne : w ≠ v) :
    discCount (setCell b r c v) w = discCount b w := by
  unfold discCount
  apply List.countP_congr
  intro y _
  by_cases hy : y = ⟨r, c⟩
  · subst hy
    simp only [setCell_same, decide_eq_true_eq]
    exact ⟨fun e => absurd e.symm hne, fun e => absurd e hold⟩
  · simp only [setCell_at, if_neg hy]

/-- Recolouring a list of distinct squares that all hold `o` to `v ≠ o`. -/
theorem discCount_foldl (v o : Cell) (hov : o ≠ v) :
    ∀ (flips : List Pos) (b : Board), flips.Nodup →
      (∀ p ∈ flips, holds b o p = true) →
      discCount (flips.foldl (fun b p => setCell b p.r p.c v) b) v =
          discCount b v + flips.length ∧
        discCount (flips.foldl (fun b p => setCell b p.r p.c v) b) o + flips.length =
          discCount b o ∧
        ∀ w, w ≠ v → w ≠ o →
          discCount (flips.foldl (fun b p => setCell b p.r p.c v) b) w = discCount b w := by
  intro flips
  induction flips with
  | nil => intro b _ _; simp
  | cons p flips ih =>
    intro b hnd hall
    have hnd' := List.nodup_cons.mp hnd
    have hp := (holds_iff b o p).mp (hall p (List.mem_cons_self p flips))
    have hpr : 0 ≤ p.r ∧ p.r < 8 := ⟨hp.1.1.1, by omega⟩
    have hpc : 0 ≤ p.c ∧ p.c < 8 := ⟨hp.1.2.1, by omega⟩
    have hall' : ∀ q ∈ flips, holds (setCell b p.r p.c v) o q = true := by
      intro q hq
      rw [holds_setCell b p.r p.c v o q (fun e => hnd'.1 (by cases p; exact e ▸ hq))]
      exact hall q (List.mem_cons_of_mem p hq)
    obtain ⟨h1, h2, h3⟩ := ih (setCell b p.r p.c v) hnd'.2 hall'
    have e1 := discCount_setCell_new b p.r p.c v hpr hpc (by rw [hp.2]; exact hov)
    have e2 := discCount_setCell_old b p.r p.c v o hpr hpc hp.2 hov
    refine ⟨?_, ?_, ?_⟩
    · rw [List.foldl_cons, h1, e1, List.length_cons]; omega
    · rw [List.foldl_cons, List.length_cons, e2]; omega
    · intro w hwv hwo
      rw [List.foldl_cons, h3 w hwv hwo]
      exact discCount_setCell_frame b p.r p.c v w (by rw [hp.2]; exact fun e => hwo e.symm) hwv

/-- The counters of `renderBoard` are the disc counts of the two colours. -/
theorem renderCounts_eq (b : Board) :
    renderCounts b = (discCount b BLACK, discCount b WHITE) := by
  have key : ∀ (l : List Pos) (acc : Nat × Nat),
      l.foldl (fun acc p =>
        let val := b p.r p.c
        let acc1 := if val = BLACK then (acc.1 + 1, acc.2) else acc
        if val = WHITE then (acc1.1, acc1.2 + 1) else acc1) acc =
      (acc.1 + l.countP (fun p => decide (b p.r p.c = BLACK)),
       acc.2 + l.countP (fun p => decide (b p.r p.c = WHITE))) := by
    intro l
    induction l with
    | nil => intro acc; simp
    | cons p l ih =>
      intro acc
      rw [List.foldl_cons, ih]
      cases hv : b p.r p.c <;> simp [List.countP_cons, hv] <;> omega
  unfold renderCounts
  rw [nested_foldl (fun acc p =>
        let val := b p.r p.c
        let acc1 := if val = BLACK then (acc.1 + 1, acc.2) else acc
        if val = WHITE then (acc1.1, acc1.2 + 1) else acc1), key]
  simp [discCount]

/-! ### The move handler -/

theorem opponentOf_ne (player : Cell) : opponentOf player ≠ player := by
  cases player <;> simp [opponentOf]

theorem opponentOf_ne_empty (player : Cell) : opponentOf player ≠ EMPTY := by
  cases player <;> simp [opponentOf]

/-- What `checkGameOver` leaves alone. -/
theorem checkGameOver_frame (s : State) :
    (checkGameOver s).1.board = s.board ∧
    (checkGameOver s).1.currentPlayer = s.currentPlayer ∧
    (checkGameOver s).1.isAnimating = s.isAnimating ∧
    (checkGameOver s).1.scoreBlack = s.scoreBlack ∧
    (checkGameOver s).1.scoreWhite = s.scoreWhite := by
  unfold checkGameOver
  simp only
  split_ifs <;> exact ⟨rfl, rfl, rfl, rfl, rfl⟩

/-- The state part of `handleMoveTail` is the state part of `checkGameOver`,
run after the switch of the player, the release of the lock and the render. -/
theorem handleMoveTail_fst (s : State) :
    (handleMoveTail s).1 =
      (checkGameOver (renderBoard { s with
        currentPlayer := if s.currentPlayer = BLACK then WHITE else BLACK,
        isAnimating := false })).1 := by
  unfold handleMoveTail
  simp only
  split_ifs <;> rfl

theorem handleMoveTail_frame (s : State) :
    (handleMoveTail s).1.board = s.board ∧
    (handleMoveTail s).1.currentPlayer = opponentOf s.currentPlayer ∧
    (handleMoveTail s).1.isAnimating = false ∧
    (handleMoveTail s).1.scoreBlack = discCount s.board BLACK ∧
    (handleMoveTail s).1.scoreWhite = discCount s.board WHITE := by
  rw [handleMoveTail_fst]
  obtain ⟨h1, h2, h3, h4, h5⟩ := checkGameOver_frame (renderBoard { s with
        currentPlayer := if s.currentPlayer = BLACK then WHITE else BLACK,
        isAnimating := false })
  rw [h1, h2, h3, h4, h5]
  simp [renderBoard, renderCounts_eq, opponentOf]

/-- An accepted call: the state at the `await` and the flips, which are those
of the board before the move. -/
theorem handleMoveBegin_accepted (s : State) (r c : Int)
    (hact : s.gameActive = true) (hidle : s.isAnimating = false)
    (hr : 0 ≤ r ∧ r < 8) (hc : 0 ≤ c ∧ c < 8)
    (hlegal : isValidMove s.board r c s.currentPlayer = true) :
    handleMoveBegin s r c =
      some ({ s with isAnimating := true, board := setCell s.board r c s.currentPlayer },
            calculateFlips s.board r c s.currentPlayer) := by
  unfold handleMoveBegin
  simp only [hact, hidle, hlegal, Bool.not_true, Bool.or_false, Bool.false_eq_true, if_false]
  rw [calculateFlips_setCell_self s.board r c s.currentPlayer s.currentPlayer hr hc]

/-- A call is accepted only if the game is active, no move is in flight and
the move is legal. -/
theorem handleMoveBegin_some (s : State) (r c : Int) (x : State × List Pos)
    (h : handleMoveBegin s r c = some x) :
    s.gameActive = true ∧ s.isAnimating = false ∧
      isValidMove s.board r c s.currentPlayer = true := by
  unfold handleMoveBegin at h
  cases hact : s.gameActive <;> cases hidle : s.isAnimating <;>
    cases hlegal : isValidMove s.board r c s.currentPlayer <;>
    simp [hact, hidle, hlegal] at h
  exact ⟨rfl, rfl, rfl⟩

theorem handleMove_accepted (s : State) (r c : Int)
    (hact : s.gameActive = true) (hidle : s.isAnimating = false)
    (hr : 0 ≤ r ∧ r < 8) (hc : 0 ≤ c ∧ c < 8)
    (hlegal : isValidMove s.board r c s.currentPlayer = true) :
    handleMove s r c =
      handleMoveEnd { s with isAnimating := true, board := setCell s.board r c s.currentPlayer }
        (calculateFlips s.board r c s.currentPlayer) := by
  unfold handleMove
  rw [handleMoveBegin_accepted s r c hact hidle hr hc hlegal]
  have hpos : (calculateFlips s.board r c s.currentPlayer).length > 0 :=
    List.length_pos.mpr ((isValidMove_iff _ _ _ _).mp hlegal).2
  simp only [hpos, if_true]

/-- The board when an accepted `handleMove` has completed. -/
theorem handleMove_board (s : State) (r c : Int)
    (hact : s.gameActive = true) (hidle : s.isAnimating = false)
    (hr : 0 ≤ r ∧ r < 8) (hc : 0 ≤ c ∧ c < 8)
    (hlegal : isValidMove s.board r c s.currentPlayer = true) :
    (handleMove s r c).1.board =
      (calculateFlips s.board r c s.currentPlayer).foldl
        (fun b p => setCell b p.r p.c s.currentPlayer)
        (setCell s.board r c s.currentPlayer) := by
  rw [handleMove_accepted s r c hact hidle hr hc hlegal]
  unfold handleMoveEnd
  rw [(handleMoveTail_frame _).1]
  rfl

theorem handleMove_currentPlayer (s : State) (r c : Int)
    (hact : s.gameActive = true) (hidle : s.isAnimating = false)
    (hr : 0 ≤ r ∧ r < 8) (hc : 0 ≤ c ∧ c < 8)
    (hlegal : isValidMove s.board r c s.currentPlayer = true) :
    (handleMove s r c).1.currentPlayer = opponentOf s.currentPlayer := by
  rw [handleMove_accepted s r c hact hidle hr hc hlegal]
  unfold handleMoveEnd
  rw [(handleMoveTail_frame _).2.1]
  rfl

/-- C2. For every state in which the game is active and no move is in flight,
and every in-bounds position that is legal for the current mover, after
`handleMove` has completed the board holds the mover's colour at the position
and at every position of `calculateFlips` taken on the pre-move board, every
other cell is unchanged, and the current mover has switched to the opponent. -/
theorem handleMove_commits (s : State) (r c : Int)
    (hact : s.gameActive = true) (hidle : s.isAnimating = false)
    (hr : 0 ≤ r ∧ r < 8) (hc : 0 ≤ c ∧ c < 8)
    (hlegal : isValidMove s.board r c s.currentPlayer = true) :
    (handleMove s r c).1.board r c = s.currentPlayer ∧
    (∀ p ∈ calculateFlips s.board r c s.currentPlayer,
      (handleMove s r c).1.board p.r p.c = s.currentPlayer) ∧
    (∀ r' c' : Int, (⟨r', c'⟩ : Pos) ≠ ⟨r, c⟩ →
      (⟨r', c'⟩ : Pos) ∉ calculateFlips s.board r c s.currentPlayer →
      (handleMove s r c).1.board r' c' = s.board r' c') ∧
    (handleMove s r c).1.currentPlayer = opponentOf s.currentPlayer := by
  rw [handleMove_board s r c hact hidle hr hc hlegal]
  refine ⟨?_, ?_, ?_, handleMove_currentPlayer s r c hact hidle hr hc hlegal⟩
  · rw [foldl_setCell, if_neg (self_not_mem_calculateFlips s.board r c s.currentPlayer hr hc)]
    exact setCell_same _ _ _ _
  · intro p hp
    rw [foldl_setCell, if_pos (by cases p; exact hp)]
  · intro r' c' hne hnot
    rw [foldl_setCell, if_neg hnot]
    exact setCell_other _ _ _ _ _ _ hne

/-- C3. For every board, mover (Black or White) and in-bounds position that is
legal for the mover, applying the move with `handleMove` increases the mover's
disc count by exactly `1 + flips.length`, decreases the opponent's disc count by
exactly `flips.length`, and increases the total number of discs by exactly 1,
where `flips = calculateFlips(pos, mover)`. -/
theorem handleMove_counts (s : State) (r c : Int)
    (hact : s.gameActive = true) (hidle : s.isAnimating = false)
    (hplayer : s.currentPlayer = BLACK ∨ s.currentPlayer = WHITE)
    (hr : 0 ≤ r ∧ r < 8) (hc : 0 ≤ c ∧ c < 8)
    (hlegal : isValidMove s.board r c s.currentPlayer = true) :
    discCount (handleMove s r c).1.board s.currentPlayer =
      discCount s.board s.currentPlayer + (1 + (calculateFlips s.board r c s.currentPlayer).length) ∧
    discCount (handleMove s r c).1.board (opponentOf s.currentPlayer) +
        (calculateFlips s.board r c s.currentPlayer).length =
      discCount s.board (opponentOf s.currentPlayer) ∧
    discCount (handleMove s r c).1.board BLACK + discCount (handleMove s r c).1.board WHITE =
      discCount s.board BLACK + discCount s.board WHITE + 1 := by
  have hempty : s.board r c = EMPTY := ((isValidMove_iff _ _ _ _).mp hlegal).1
  have hmover : s.currentPlayer ≠ EMPTY := by
    rcases hplayer with h | h <;> rw [h] <;> decide
  have hall : ∀ p ∈ calculateFlips s.board r c s.currentPlayer,
      holds (setCell s.board r c s.currentPlayer) (opponentOf s.currentPlayer) p = true := by
    intro p hp
    rw [holds_setCell _ _ _ _ _ _ (fun e => self_not_mem_calculateFlips s.board r c
      s.currentPlayer hr hc (e ▸ hp))]
    exact holds_of_mem_calculateFlips s.board r c s.currentPlayer hr hc p hp
  obtain ⟨h1, h2, _⟩ := discCount_foldl s.currentPlayer (opponentOf s.currentPlayer)
    (opponentOf_ne s.currentPlayer) (calculateFlips s.board r c s.currentPlayer)
    (setCell s.board r c s.currentPlayer)
    (calculateFlips_nodup s.board r c s.currentPlayer hr hc) hall
  have e1 := discCount_setCell_new s.board r c s.currentPlayer hr hc
    (by rw [hempty]; exact fun e => hmover e.symm)
  have e2 := discCount_setCell_frame s.board r c s.currentPlayer (opponentOf s.currentPlayer)
    (by rw [hempty]; exact fun e => opponentOf_ne_empty s.currentPlayer e.symm)
    (opponentOf_ne s.currentPlayer)
  rw [handleMove_board s r c hact hidle hr hc hlegal]
  have hA : discCount ((calculateFlips s.board r c s.currentPlayer).foldl
        (fun b p => setCell b p.r p.c s.currentPlayer) (setCell s.board r c s.currentPlayer))
        s.currentPlayer =
      discCount s.board s.currentPlayer +
        (1 + (calculateFlips s.board r c s.currentPlayer).length) := by
    rw [h1, e1]; omega
  have hB : discCount ((calculateFlips s.board r c s.currentPlayer).foldl
        (fun b p => setCell b p.r p.c s.currentPlayer) (setCell s.board r c s.currentPlayer))
        (opponentOf s.currentPlayer) + (calculateFlips s.board r c s.currentPlayer).length =
      discCount s.board (opponentOf s.currentPlayer) := by
    rw [h2, e2]
  refine ⟨hA, hB, ?_⟩
  rcases hplayer with h | h
  · rw [h] at hA hB ⊢
    have : opponentOf BLACK = WHITE := rfl
    rw [this] at hB
    omega
  · rw [h] at hA hB ⊢
    have : opponentOf WHITE = BLACK := rfl
    rw [this] at hB
    omega

/-- C5. For every state and every in-bounds position that is occupied or whose
`calculateFlips` for the current mover is empty, `handleMove` returns at its
guard and is a no-op: the board, the current mover, the game-active flag, the
busy lock and both win counters are unchanged, and nothing is scheduled. -/
theorem handleMove_rejects_illegal (s : State) (r c : Int)
    (_hr : 0 ≤ r ∧ r < 8) (_hc : 0 ≤ c ∧ c < 8)
    (hbad : s.board r c ≠ EMPTY ∨ calculateFlips s.board r c s.currentPlayer = []) :
    handleMoveBegin s r c = none ∧ handleMove s r c = (s, []) := by
  have hinv : isValidMove s.board r c s.currentPlayer = false := by
    cases h : isValidMove s.board r c s.currentPlayer
    · rfl
    · obtain ⟨h1, h2⟩ := (isValidMove_iff _ _ _ _).mp h
      rcases hbad with hb | hb
      · exact absurd h1 hb
      · exact absurd hb h2
  have hnone : handleMoveBegin s r c = none := by
    unfold handleMoveBegin
    cases hg : (!s.gameActive || s.isAnimating) <;> simp [hinv]
  exact ⟨hnone, by unfold handleMove; rw [hnone]⟩

/-! ### Pass and end of game -/

theorem checkGameOver_moves (s : State)
    (h : getValidMoves s.board s.currentPlayer ≠ []) :
    checkGameOver s = (s, false, []) := by
  unfold checkGameOver
  simp only [gt_iff_lt, List.length_pos.mpr h, if_true]

theorem checkGameOver_pass (s : State)
    (h1 : getValidMoves s.board s.currentPlayer = [])
    (h2 : getValidMoves s.board (opponentOf s.currentPlayer) ≠ []) :
    checkGameOver s = (s, false, [Task.pass (opponentOf s.currentPlayer)]) := by
  have h2' : getValidMoves s.board (if s.currentPlayer = BLACK then WHITE else BLACK) ≠ [] := h2
  unfold checkGameOver
  simp [h1, h2']
  rfl

theorem checkGameOver_over (s : State)
    (h1 : getValidMoves s.board s.currentPlayer = [])
    (h2 : getValidMoves s.board (opponentOf s.currentPlayer) = []) :
    checkGameOver s =
      (if s.scoreBlack > s.scoreWhite then
          { s with gameActive := false, blackWins := s.blackWins + 1 }
        else if s.scoreWhite > s.scoreBlack then
          { s with gameActive := false, whiteWins := s.whiteWins + 1 }
        else { s with gameActive := false },
       true, [Task.gameOverAlert]) := by
  have h2' : getValidMoves s.board (if s.currentPlayer = BLACK then WHITE else BLACK) = [] := h2
  unfold checkGameOver
  simp [h1, h2']

/-- When `checkGameOver` answers false, what it scheduled stays scheduled at
the end of `handleMoveTail`. -/
theorem handleMoveTail_tasks (s : State) (t : Task)
    (hover : ¬ (checkGameOver (renderBoard { s with
        currentPlayer := if s.currentPlayer = BLACK then WHITE else BLACK,
        isAnimating := false })).2.1 = true)
    (ht : t ∈ (checkGameOver (renderBoard { s with
        currentPlayer := if s.currentPlayer = BLACK then WHITE else BLACK,
        isAnimating := false })).2.2) :
    t ∈ (handleMoveTail s).2 := by
  unfold handleMoveTail
  simp only
  generalize checkGameOver (renderBoard { s with
        currentPlayer := if s.currentPlayer = BLACK then WHITE else BLACK,
        isAnimating := false }) = res at hover ht
  obtain ⟨s4, over, tasks⟩ := res
  simp only at hover ht ⊢
  rw [if_neg hover]
  split_ifs
  · exact List.mem_append_left _ ht
  · exact ht

/-- An accepted move, seen from `checkGameOver`: the state handed to it. -/
theorem handleMove_eq_check (s : State) (r c : Int)
    (hact : s.gameActive = true) (hidle : s.isAnimating = false)
    (hr : 0 ≤ r ∧ r < 8) (hc : 0 ≤ c ∧ c < 8)
    (hlegal : isValidMove s.board r c s.currentPlayer = true) :
    ∃ s3 : State,
      handleMove s r c = handleMoveTail (applyFlips
        { s with isAnimating := true, board := setCell s.board r c s.currentPlayer }
        (calculateFlips s.board r c s.currentPlayer)) ∧
      (handleMove s r c).1 = (checkGameOver s3).1 ∧
      (¬ (checkGameOver s3).2.1 = true → ∀ t ∈ (checkGameOver s3).2.2, t ∈ (handleMove s r c).2) ∧
      s3.board = (handleMove s r c).1.board ∧
      s3.currentPlayer = opponentOf s.currentPlayer ∧
      s3.gameActive = true ∧
      s3.blackWins = s.blackWins ∧ s3.whiteWins = s.whiteWins ∧
      s3.scoreBlack = discCount s3.board BLACK ∧ s3.scoreWhite = discCount s3.board WHITE := by
  have hacc := handleMove_accepted s r c hact hidle hr hc hlegal
  refine ⟨renderBoard { (applyFlips
        { s with isAnimating := true, board := setCell s.board r c s.currentPlayer }
        (calculateFlips s.board r c s.currentPlayer)) with
        currentPlayer := if s.currentPlayer = BLACK then WHITE else BLACK,
        isAnimating := false }, hacc, ?_, ?_, ?_, rfl, hact, rfl, rfl, ?_, ?_⟩
  · rw [hacc]; unfold handleMoveEnd; rw [handleMoveTail_fst]; rfl
  · intro hover t ht
    rw [hacc]; unfold handleMoveEnd
    exact handleMoveTail_tasks _ t hover ht
  · rw [hacc]; unfold handleMoveEnd; rw [(handleMoveTail_frame _).1]; rfl
  · simp [renderBoard, renderCounts_eq]
  · simp [renderBoard, renderCounts_eq]

theorem opponentOf_opponentOf (player : Cell) (h : player = BLACK ∨ player = WHITE) :
    opponentOf (opponentOf player) = player := by
  rcases h with h | h <;> rw [h] <;> rfl

theorem opponentOf_cases (player : Cell) :
    (opponentOf player = BLACK ∧ opponentOf (opponentOf player) = WHITE) ∨
    (opponentOf player = WHITE ∧ opponentOf (opponentOf player) = BLACK) := by
  cases player <;> simp [opponentOf]

/-- The flag `gameActive` after `checkGameOver` on an active game. -/
theorem checkGameOver_gameActive (s : State) (hact : s.gameActive = true) :
    (checkGameOver s).1.gameActive = false ↔
      getValidMoves s.board s.currentPlayer = [] ∧
        getValidMoves s.board (opponentOf s.currentPlayer) = [] := by
  by_cases h1 : getValidMoves s.board s.currentPlayer = []
  · by_cases h2 : getValidMoves s.board (opponentOf s.currentPlayer) = []
    · rw [checkGameOver_over s h1 h2]
      simp only [h1, h2, and_self, iff_true]
      split_ifs <;> rfl
    · rw [checkGameOver_pass s h1 h2]
      simp [hact, h2]
  · rw [checkGameOver_moves s h1]
    simp [hact, h1]

/-- C6. After every accepted move, the game is over (`checkGameOver` has set
`gameActive` to false) if and only if both colours have an empty legal-move set
on the resulting board. -/
theorem gameOver_iff_no_moves (s : State) (r c : Int)
    (hact : s.gameActive = true) (hidle : s.isAnimating = false)
    (hr : 0 ≤ r ∧ r < 8) (hc : 0 ≤ c ∧ c < 8)
    (hlegal : isValidMove s.board r c s.currentPlayer = true) :
    (handleMove s r c).1.gameActive = false ↔
      getValidMoves (handleMove s r c).1.board BLACK = [] ∧
        getValidMoves (handleMove s r c).1.board WHITE = [] := by
  obtain ⟨s3, _, h1, _, hb, hp, ha, _⟩ := handleMove_eq_check s r c hact hidle hr hc hlegal
  rw [← hb, h1, checkGameOver_gameActive s3 ha, hp]
  rcases opponentOf_cases s.currentPlayer with ⟨e1, _⟩ | ⟨e1, _⟩
  · rw [e1]; exact Iff.rfl
  · rw [e1]; exact and_comm

/-- C7. Whenever an accepted move ends the game, the result follows the strict
comparison of the disc counts on the final board: the Black win counter goes up
by exactly one iff there are strictly more Black than White discs, the White
win counter goes up by exactly one iff there are strictly more White than
Black discs, a counter that does not go up is unchanged, and with equal counts
neither counter changes. -/
theorem gameOver_tally (s : State) (r c : Int)
    (hact : s.gameActive = true) (hidle : s.isAnimating = false)
    (hr : 0 ≤ r ∧ r < 8) (hc : 0 ≤ c ∧ c < 8)
    (hlegal : isValidMove s.board r c s.currentPlayer = true)
    (hover : (handleMove s r c).1.gameActive = false) :
    ((handleMove s r c).1.blackWins = s.blackWins + 1 ↔
      discCount (handleMove s r c).1.board WHITE < discCount (handleMove s r c).1.board BLACK) ∧
    ((handleMove s r c).1.whiteWins = s.whiteWins + 1 ↔
      discCount (handleMove s r c).1.board BLACK < discCount (handleMove s r c).1.board WHITE) ∧
    (¬ discCount (handleMove s r c).1.board WHITE < discCount (handleMove s r c).1.board BLACK →
      (handleMove s r c).1.blackWins = s.blackWins) ∧
    (¬ discCount (handleMove s r c).1.board BLACK < discCount (handleMove s r c).1.board WHITE →
      (handleMove s r c).1.whiteWins = s.whiteWins) ∧
    (discCount (handleMove s r c).1.board BLACK = discCount (handleMove s r c).1.board WHITE →
      (handleMove s r c).1.blackWins = s.blackWins ∧
        (handleMove s r c).1.whiteWins = s.whiteWins) := by
  obtain ⟨s3, _, h1, _, hb, hp, ha, hbw, hww, hsb, hsw⟩ :=
    handleMove_eq_check s r c hact hidle hr hc hlegal
  rw [h1] at hover
  obtain ⟨hm1, hm2⟩ := (checkGameOver_gameActive s3 ha).mp hover
  have key : (checkGameOver s3).1.blackWins =
        (if discCount s3.board WHITE < discCount s3.board BLACK then s3.blackWins + 1
          else s3.blackWins) ∧
      (checkGameOver s3).1.whiteWins =
        (if discCount s3.board WHITE < discCount s3.board BLACK then s3.whiteWins
          else if discCount s3.board BLACK < discCount s3.board WHITE then s3.whiteWins + 1
          else s3.whiteWins) := by
    rw [checkGameOver_over s3 hm1 hm2, hsb, hsw]
    simp only [gt_iff_lt]
    split_ifs <;> exact ⟨rfl, rfl⟩
  rw [← hb, h1, key.1, key.2, hbw, hww]
  split_ifs <;> refine ⟨?_, ?_, ?_, ?_, ?_⟩ <;> omega

/-- C8. After every accepted move by Black or White, if the opponent of the
player who just moved has no legal move on the resulting board but the player
who just moved has at least one, the game does not end (`gameActive` stays
true), the pass callback is scheduled for the player who just moved, and the
pass (`currentPlayer = opponent; renderBoard()`) gives the turn back to that
player and leaves the board unchanged; unless that player is White with the
computer enabled, the callback does nothing more. -/
theorem pass_returns_turn (s : State) (r c : Int)
    (hact : s.gameActive = true) (hidle : s.isAnimating = false)
    (hplayer : s.currentPlayer = BLACK ∨ s.currentPlayer = WHITE)
    (hr : 0 ≤ r ∧ r < 8) (hc : 0 ≤ c ∧ c < 8)
    (hlegal : isValidMove s.board r c s.currentPlayer = true)
    (hopp : getValidMoves (handleMove s r c).1.board (opponentOf s.currentPlayer) = [])
    (hown : getValidMoves (handleMove s r c).1.board s.currentPlayer ≠ []) :
    (handleMove s r c).1.gameActive = true ∧
    (handleMove s r c).1.currentPlayer = opponentOf s.currentPlayer ∧
    Task.pass s.currentPlayer ∈ (handleMove s r c).2 ∧
    (passResolve (handleMove s r c).1 s.currentPlayer).currentPlayer = s.currentPlayer ∧
    (passResolve (handleMove s r c).1 s.currentPlayer).board = (handleMove s r c).1.board ∧
    (passResolve (handleMove s r c).1 s.currentPlayer).gameActive = true ∧
    (∀ rnd : ℚ, ¬ (s.currentPlayer = WHITE ∧ (handleMove s r c).1.chkComputer = true) →
      passCallback (handleMove s r c).1 s.currentPlayer rnd =
        (passResolve (handleMove s r c).1 s.currentPlayer, [])) := by
  obtain ⟨s3, _, h1, ht, hb, hp, ha, _⟩ := handleMove_eq_check s r c hact hidle hr hc hlegal
  have hoo := opponentOf_opponentOf s.currentPlayer hplayer
  have hm1 : getValidMoves s3.board s3.currentPlayer = [] := by rw [hb, hp]; exact hopp
  have hm2 : getValidMoves s3.board (opponentOf s3.currentPlayer) ≠ [] := by
    rw [hb, hp, hoo]; exact hown
  have hck := checkGameOver_pass s3 hm1 hm2
  have hs : (handleMove s r c).1 = s3 := by rw [h1, hck]
  have hga : (handleMove s r c).1.gameActive = true := by rw [hs]; exact ha
  refine ⟨hga, handleMove_currentPlayer s r c hact hidle hr hc hlegal, ?_, rfl, rfl, hga, ?_⟩
  · apply ht (by rw [hck]; simp)
    rw [hck, hp, hoo]
    exact List.mem_singleton.mpr rfl
  · intro rnd hnot
    unfold passCallback
    simp only
    rw [if_neg]
    intro hcond
    apply hnot
    simp only [Bool.and_eq_true, decide_eq_true_eq] at hcond
    exact ⟨hcond.1, hcond.2⟩

/-- C9, as the code has it. For every accepted move, the placed disc is on the
board and the lock is set when the flip playback begins, but the captured cells
are written only after the playback: at the `await` every position of the
move's (non-empty) flips still holds the opponent's colour, and once the part
of `handleMove` after the `await` has run every such position holds the
mover's colour. -/
theorem flips_written_after_playback (s : State) (r c : Int) (s1 : State) (flips : List Pos)
    (hr : 0 ≤ r ∧ r < 8) (hc : 0 ≤ c ∧ c < 8)
    (hbegin : handleMoveBegin s r c = some (s1, flips)) :
    s1.board r c = s.currentPlayer ∧ s1.isAnimating = true ∧
    flips = calculateFlips s.board r c s.currentPlayer ∧ flips ≠ [] ∧
    (∀ p ∈ flips, s1.board p.r p.c = opponentOf s.currentPlayer ∧
      s1.board p.r p.c ≠ s.currentPlayer) ∧
    (∀ p ∈ flips, (handleMoveEnd s1 flips).1.board p.r p.c = s.currentPlayer) := by
  obtain ⟨hact, hidle, hlegal⟩ := handleMoveBegin_some s r c _ hbegin
  rw [handleMoveBegin_accepted s r c hact hidle hr hc hlegal] at hbegin
  simp only [Option.some.injEq, Prod.mk.injEq] at hbegin
  obtain ⟨hs1, hfl⟩ := hbegin
  subst hs1 hfl
  refine ⟨setCell_same _ _ _ _, rfl, rfl, ((isValidMove_iff _ _ _ _).mp hlegal).2, ?_, ?_⟩
  · intro p hp
    have hne : p ≠ ⟨r, c⟩ := fun e =>
      self_not_mem_calculateFlips s.board r c s.currentPlayer hr hc (e ▸ hp)
    have hh := (holds_iff _ _ _).mp
      (holds_of_mem_calculateFlips s.board r c s.currentPlayer hr hc p hp)
    have hval : setCell s.board r c s.currentPlayer p.r p.c = opponentOf s.currentPlayer := by
      rw [setCell_other _ _ _ _ _ _ (by cases p; simpa using hne)]; exact hh.2
    refine ⟨hval, ?_⟩
    show setCell s.board r c s.currentPlayer p.r p.c ≠ s.currentPlayer
    rw [hval]; exact opponentOf_ne _
  · intro p hp
    unfold handleMoveEnd
    rw [(handleMoveTail_frame _).1]
    simp only [applyFlips]
    rw [foldl_setCell, if_pos (by cases p; exact hp)]

/-- C10, as the code has it. From the instant `handleMove` accepts a move, the
busy lock is set; for as long as it stays set every `handleMove` call, whatever
its position, returns at the guard and changes nothing (board, current mover,
win counters, lock), so any sequence of further calls leaves the state as it
is. The lock is cleared by the part of `handleMove` that runs after the
playback, and also by `initGame`: after a restart during the playback the lock
is clear and the opening move `(2, 3)` is accepted. -/
theorem busy_lock_rejects (s : State) (r c : Int) (s1 : State) (flips : List Pos)
    (hbegin : handleMoveBegin s r c = some (s1, flips)) :
    s1.isAnimating = true ∧
    (∀ st : State, st.isAnimating = true → ∀ r' c' : Int,
      handleMoveBegin st r' c' = none ∧ handleMove st r' c' = (st, []) ∧
        handleMoveCall st r' c' = (st, [])) ∧
    (∀ calls : List (Int × Int),
      calls.foldl (fun st p => (handleMove st p.1 p.2).1) s1 = s1) ∧
    (handleMoveEnd s1 flips).1.isAnimating = false ∧
    (initGame s1).isAnimating = false ∧
    (handleMoveBegin (initGame s1) 2 3).isSome = true := by
  have hlock : s1.isAnimating = true := by
    obtain ⟨hact, hidle, hlegal⟩ := handleMoveBegin_some s r c _ hbegin
    unfold handleMoveBegin at hbegin
    simp [hact, hidle, hlegal] at hbegin
    rw [← hbegin.1]
  have hrej : ∀ st : State, st.isAnimating = true → ∀ r' c' : Int,
      handleMoveBegin st r' c' = none ∧ handleMove st r' c' = (st, []) ∧
        handleMoveCall st r' c' = (st, []) := by
    intro st hst r' c'
    have hnone : handleMoveBegin st r' c' = none := by
      unfold handleMoveBegin
      simp [hst]
    exact ⟨hnone, by unfold handleMove; rw [hnone], by unfold handleMoveCall; rw [hnone]⟩
  refine ⟨hlock, hrej, ?_, ?_, rfl, ?_⟩
  · intro calls
    induction calls with
    | nil => rfl
    | cons p calls ih =>
      rw [List.foldl_cons, (hrej s1 hlock p.1 p.2).2.1]
      exact ih
  · unfold handleMoveEnd
    exact (handleMoveTail_frame _).2.2.1
  · have hv : isValidMove (initGame s1).board 2 3 (initGame s1).currentPlayer = true := by
      show isValidMove initialBoard 2 3 BLACK = true
      decide
    rw [handleMoveBegin_accepted (initGame s1) 2 3 rfl rfl (by decide) (by decide) hv]
    rfl

/-! ### The theorems at concrete positions -/

/-- C1 at the opening position: Black's scan of `(2, 3)`. -/
theorem calculateFlips_spec_witness :
    ((0 : Int) ≤ 2 ∧ (2 : Int) < 8) ∧ ((0 : Int) ≤ 3 ∧ (3 : Int) < 8) ∧
    calculateFlipsFuel 8 initialBoard 2 3 BLACK = some (calculateFlips initialBoard 2 3 BLACK) ∧
    calculateFlips initialBoard 2 3 BLACK =
      (dirs.map (contribution initialBoard 2 3 BLACK)).flatten :=
  ⟨by decide, by decide,
    (calculateFlips_spec initialBoard 2 3 BLACK (by decide) (by decide)).1 8 (le_refl 8),
    (calculateFlips_spec initialBoard 2 3 BLACK (by decide) (by decide)).2.2.1⟩

/-- C2 at the opening position: Black plays `(2, 3)`. -/
theorem handleMove_commits_witness :
    isValidMove (initialState false false).board 2 3 (initialState false false).currentPlayer = true ∧
    (handleMove (initialState false false) 2 3).1.board 2 3 =
      (initialState false false).currentPlayer ∧
    (handleMove (initialState false false) 2 3).1.currentPlayer =
      opponentOf (initialState false false).currentPlayer :=
  ⟨by decide,
    (handleMove_commits (initialState false false) 2 3 (by decide) (by decide) (by decide)
      (by decide) (by decide)).1,
    (handleMove_commits (initialState false false) 2 3 (by decide) (by decide) (by decide)
      (by decide) (by decide)).2.2.2⟩

/-- C3 at the opening position: Black plays `(2, 3)`. -/
theorem handleMove_counts_witness :
    isValidMove (initialState false false).board 2 3 (initialState false false).currentPlayer = true ∧
    discCount (handleMove (initialState false false) 2 3).1.board BLACK +
        discCount (handleMove (initialState false false) 2 3).1.board WHITE =
      discCount (initialState false false).board BLACK +
        discCount (initialState false false).board WHITE + 1 :=
  ⟨by decide,
    (handleMove_counts (initialState false false) 2 3 (by decide) (by decide) (Or.inl rfl)
      (by decide) (by decide) (by decide)).2.2⟩

/-- C5 at the opening position: the occupied square `(3, 3)`. -/
theorem handleMove_rejects_illegal_witness :
    (initialState false false).board 3 3 ≠ EMPTY ∧
    handleMove (initialState false false) 3 3 = (initialState false false, []) :=
  ⟨by decide,
    (handleMove_rejects_illegal (initialState false false) 3 3 (by decide) (by decide)
      (Or.inl (by decide))).2⟩

/-- C6 at the opening position: Black plays `(2, 3)`. -/
theorem gameOver_iff_no_moves_witness :
    isValidMove (initialState false false).board 2 3 (initialState false false).currentPlayer = true ∧
    ((handleMove (initialState false false) 2 3).1.gameActive = false ↔
      getValidMoves (handleMove (initialState false false) 2 3).1.board BLACK = [] ∧
        getValidMoves (handleMove (initialState false false) 2 3).1.board WHITE = []) :=
  ⟨by decide,
    gameOver_iff_no_moves (initialState false false) 2 3 (by decide) (by decide) (by decide)
      (by decide) (by decide)⟩

/-- C7 on `lastMoveBoard`: Black plays `(0, 0)` and the game ends. -/
theorem gameOver_tally_witness :
    isValidMove (stateOn lastMoveBoard BLACK).board 0 0 (stateOn lastMoveBoard BLACK).currentPlayer = true ∧
    (handleMove (stateOn lastMoveBoard BLACK) 0 0).1.gameActive = false ∧
    ((handleMove (stateOn lastMoveBoard BLACK) 0 0).1.blackWins =
        (stateOn lastMoveBoard BLACK).blackWins + 1 ↔
      discCount (handleMove (stateOn lastMoveBoard BLACK) 0 0).1.board WHITE <
        discCount (handleMove (stateOn lastMoveBoard BLACK) 0 0).1.board BLACK) :=
  ⟨by decide, by decide,
    (gameOver_tally (stateOn lastMoveBoard BLACK) 0 0 (by decide) (by decide) (by decide)
      (by decide) (by decide) (by decide)).1⟩

/-- C8 on `passBoard`: Black plays `(0, 0)`, White has no move, Black has. -/
theorem pass_returns_turn_witness :
    isValidMove (stateOn passBoard BLACK).board 0 0 (stateOn passBoard BLACK).currentPlayer = true ∧
    getValidMoves (handleMove (stateOn passBoard BLACK) 0 0).1.board
      (opponentOf (stateOn passBoard BLACK).currentPlayer) = [] ∧
    getValidMoves (handleMove (stateOn passBoard BLACK) 0 0).1.board
      (stateOn passBoard BLACK).currentPlayer ≠ [] ∧
    (handleMove (stateOn passBoard BLACK) 0 0).1.gameActive = true ∧
    (passResolve (handleMove (stateOn passBoard BLACK) 0 0).1
      (stateOn passBoard BLACK).currentPlayer).currentPlayer =
        (stateOn passBoard BLACK).currentPlayer :=
  ⟨by decide, by decide, by decide,
    (pass_returns_turn (stateOn passBoard BLACK) 0 0 (by decide) (by decide) (Or.inl rfl)
      (by decide) (by decide) (by decide) (by decide) (by decide)).1,
    (pass_returns_turn (stateOn passBoard BLACK) 0 0 (by decide) (by decide) (Or.inl rfl)
      (by decide) (by decide) (by decide) (by decide) (by decide)).2.2.2.1⟩

/-- C9, the claim as stated fails at the opening position: when Black's move
`(2, 3)` has been accepted and the playback of its flips `[(3, 3)]` begins,
`board[3][3]` still holds White. -/
theorem flips_not_written_before_playback :
    ∃ (s1 : State) (flips : List Pos),
      handleMoveBegin (initialState false false) 2 3 = some (s1, flips) ∧
      (⟨3, 3⟩ : Pos) ∈ flips ∧ s1.board 3 3 = WHITE ∧
      s1.board 3 3 ≠ (initialState false false).currentPlayer :=
  ⟨{ initialState false false with
      isAnimating := true,
      board := setCell (initialState false false).board 2 3 BLACK },
    [⟨3, 3⟩], by rfl, by decide, by decide, by decide⟩

/-- C9 as the code has it, at the opening position. -/
theorem flips_written_after_playback_witness :
    handleMoveBegin (initialState false false) 2 3 =
      some ({ initialState false false with
              isAnimating := true,
              board := setCell (initialState false false).board 2 3 BLACK }, [⟨3, 3⟩]) ∧
    (∀ p ∈ [(⟨3, 3⟩ : Pos)],
      (setCell (initialState false false).board 2 3 BLACK) p.r p.c =
        opponentOf (initialState false false).currentPlayer ∧
      (setCell (initialState false false).board 2 3 BLACK) p.r p.c ≠
        (initialState false false).currentPlayer) :=
  ⟨by rfl,
    (flips_written_after_playback (initialState false false) 2 3
      { initialState false false with
        isAnimating := true,
        board := setCell (initialState false false).board 2 3 BLACK }
      [⟨3, 3⟩] (by decide) (by decide) (by rfl)).2.2.2.2.1⟩

/-- C10 at the opening position: Black's move `(2, 3)` is in flight. -/
theorem busy_lock_rejects_witness :
    handleMoveBegin (initialState false false) 2 3 =
      some ({ initialState false false with
              isAnimating := true,
              board := setCell (initialState false false).board 2 3 BLACK }, [⟨3, 3⟩]) ∧
    handleMove { initialState false false with
                 isAnimating := true,
                 board := setCell (initialState false false).board 2 3 BLACK } 2 4 =
      ({ initialState false false with
         isAnimating := true,
         board := setCell (initialState false false).board 2 3 BLACK }, []) :=
  ⟨by rfl,
    ((busy_lock_rejects (initialState false false) 2 3
      { initialState false false with
        isAnimating := true,
        board := setCell (initialState false false).board 2 3 BLACK }
      [⟨3, 3⟩] (by rfl)).2.1 _ rfl 2 4).2.1⟩

/-- C10, the claim as stated fails. Black's opening move `(2, 3)` has been
accepted, the lock is set and the rest of the move waits for the playback of
`[(3, 3)]`; `initGame` (the restart button) then clears the lock, and a further
`handleMove(2, 3)` call is accepted and writes Black on the empty square
`(2, 3)` before the first move's playback has finished. -/
theorem restart_unlocks_during_playback :
    (handleMoveCall (initialState false false) 2 3).2 = [Task.resumeMove [⟨3, 3⟩]] ∧
    (handleMoveCall (initialState false false) 2 3).1.isAnimating = true ∧
    (initGame (handleMoveCall (initialState false false) 2 3).1).isAnimating = false ∧
    (initGame (handleMoveCall (initialState false false) 2 3).1).board 2 3 = EMPTY ∧
    (handleMoveBegin (initGame (handleMoveCall (initialState false false) 2 3).1) 2 3).isSome
      = true ∧
    (handleMoveCall (initGame (handleMoveCall (initialState false false) 2 3).1) 2 3).1.board
      2 3 = BLACK := by
  refine ⟨by decide, by decide, by decide, by decide, by decide, by decide⟩

/-! ### Further facts about the flips and about the opening position -/

/-- A cell on the board along a direction from an in-bounds square is at most
seven steps away. -/
theorem holds_cellAt_le (b : Board) (v : Cell) (row col : Int) (d : Int × Int) (hd : d ∈ dirs)
    (hrow : 0 ≤ row ∧ row < 8) (hcol : 0 ≤ col ∧ col < 8) (k : Nat)
    (h : holds b v (cellAt row col d k) = true) : k ≤ 7 := by
  have hin := ((holds_iff b v _).mp h).1
  simp only [cellAt] at hin
  rcases mem_dirs hd with e | e | e | e | e | e | e | e <;> subst e <;>
    simp at hin <;> omega

/-- A direction contributes at most six cells. -/
theorem contribution_length_le (b : Board) (row col : Int) (player : Cell) (d : Int × Int)
    (hd : d ∈ dirs) (hrow : 0 ≤ row ∧ row < 8) (hcol : 0 ≤ col ∧ col < 8) :
    (contribution b row col player d).length ≤ 6 := by
  unfold contribution
  simp only
  split
  · next h =>
    have := holds_cellAt_le b player row col d hd hrow hcol _ h.2
    omega
  · simp

/-- C14. The flip set does not change as a result of placing the new disc: for
every board, in-bounds position `(r, c)` and player, `calculateFlips(r, c, player)`
evaluated on the board with cell `(r, c)` set to `player`, as `handleMove` does
before it computes the flips, returns (with eight or more units of fuel) and
equals `calculateFlips(r, c, player)` evaluated on the pre-move board. -/
theorem calculateFlips_after_placement (b : Board) (r c : Int) (player : Cell)
    (hr : 0 ≤ r ∧ r < 8) (hc : 0 ≤ c ∧ c < 8) :
    calculateFlips (setCell b r c player) r c player = calculateFlips b r c player ∧
    ∀ fuel, 8 ≤ fuel →
      calculateFlipsFuel fuel (setCell b r c player) r c player =
        some (calculateFlips b r c player) := by
  have h := calculateFlips_setCell_self b r c player player hr hc
  refine ⟨h, fun fuel hfuel => ?_⟩
  rw [calculateFlipsFuel_enough fuel hfuel _ r c player hr hc, ← h,
    calculateFlips_eq _ r c player hr hc]

/-- C15. For every board, in-bounds position and player, every position in
`calculateFlips(row, col, player)` is in bounds and holds the opponent's colour
on that board; it holds neither the player's own colour nor Empty. -/
theorem calculateFlips_only_opponent (b : Board) (row col : Int) (player : Cell)
    (hrow : 0 ≤ row ∧ row < 8) (hcol : 0 ≤ col ∧ col < 8) :
    ∀ p ∈ calculateFlips b row col player,
      ((0 ≤ p.r ∧ p.r ≤ 7) ∧ (0 ≤ p.c ∧ p.c ≤ 7)) ∧
      b p.r p.c = opponentOf player ∧ b p.r p.c ≠ player ∧ b p.r p.c ≠ EMPTY := by
  intro p hp
  obtain ⟨hin, hval⟩ := (holds_iff b _ p).mp
    (holds_of_mem_calculateFlips b row col player hrow hcol p hp)
  refine ⟨hin, hval, ?_, ?_⟩
  · rw [hval]; exact opponentOf_ne player
  · rw [hval]; exact opponentOf_ne_empty player

/-- C20. For every board, in-bounds position `(row, col)` and player, the list
`calculateFlips(row, col, player)` contains no position twice and never
contains `(row, col)` itself: it is taken from the eight rays from
`(row, col)`, which are pairwise disjoint and do not pass through
`(row, col)`; and each direction of the scan adds at most 6 positions. -/
theorem calculateFlips_distinct (b : Board) (row col : Int) (player : Cell)
    (hrow : 0 ≤ row ∧ row < 8) (hcol : 0 ≤ col ∧ col < 8) :
    (calculateFlips b row col player).Nodup ∧
    (⟨row, col⟩ : Pos) ∉ calculateFlips b row col player ∧
    List.Sublist (calculateFlips b row col player) (dirs.map (ray row col)).flatten ∧
    ((dirs.map (ray row col)).flatten).Nodup ∧
    (⟨row, col⟩ : Pos) ∉ (dirs.map (ray row col)).flatten ∧
    (∀ d ∈ dirs, ∀ res : List Pos,
      scanDir 8 b row col player res d = some (res ++ contribution b row col player d) ∧
      (contribution b row col player d).length ≤ 6) :=
  ⟨calculateFlips_nodup b row col player hrow hcol,
    self_not_mem_calculateFlips b row col player hrow hcol,
    calculateFlips_sublist_rays b row col player hrow hcol,
    rays_nodup row col, self_not_mem_rays row col,
    fun d hd res => ⟨scanDir_eq 8 (le_refl 8) b row col player res d hd hrow hcol,
      contribution_length_le b row col player d hd hrow hcol⟩⟩

/-- C16. The board produced by `initGame` has White on `(3, 3)` and `(4, 4)`,
Black on `(3, 4)` and `(4, 3)` and every other cell Empty, hence exactly 4
discs, 2 Black and 2 White, and `getValidMoves(BLACK)` on it returns exactly 4
positions. -/
theorem initGame_board (s : State) :
    (initGame s).board 3 3 = WHITE ∧ (initGame s).board 3 4 = BLACK ∧
    (initGame s).board 4 3 = BLACK ∧ (initGame s).board 4 4 = WHITE ∧
    (∀ r c : Int, ¬ ((r = 3 ∨ r = 4) ∧ (c = 3 ∨ c = 4)) → (initGame s).board r c = EMPTY) ∧
    discCount (initGame s).board BLACK = 2 ∧ discCount (initGame s).board WHITE = 2 ∧
    discCount (initGame s).board BLACK + discCount (initGame s).board WHITE = 4 ∧
    getValidMoves (initGame s).board BLACK = [⟨2, 3⟩, ⟨3, 2⟩, ⟨4, 5⟩, ⟨5, 4⟩] ∧
    (getValidMoves (initGame s).board BLACK).length = 4 := by
  have hb : (initGame s).board = initialBoard := rfl
  rw [hb]
  refine ⟨by decide, by decide, by decide, by decide, ?_, by decide, by decide, by decide,
    by decide, by decide⟩
  intro r c hrc
  simp only [initialBoard, setCell]
  split_ifs <;> first | rfl | (exfalso; omega)

/-- C18. For every prior state, `initGame` resets the game to the initial
board with Black to move, the game active and the busy lock cleared, and does
not touch the match tally: `blackWins` and `whiteWins` are unchanged. -/
theorem initGame_resets (s : State) :
    (initGame s).board = initialBoard ∧ (initGame s).currentPlayer = BLACK ∧
    (initGame s).gameActive = true ∧ (initGame s).isAnimating = false ∧
    (initGame s).blackWins = s.blackWins ∧ (initGame s).whiteWins = s.whiteWins ∧
    (∀ r c : Int, (initGame s).board r c =
      if (r = 3 ∧ c = 3) ∨ (r = 4 ∧ c = 4) then WHITE
      else if (r = 3 ∧ c = 4) ∨ (r = 4 ∧ c = 3) then BLACK else EMPTY) := by
  refine ⟨rfl, rfl, rfl, rfl, rfl, rfl, fun r c => ?_⟩
  have hb : (initGame s).board = initialBoard := rfl
  rw [hb]
  simp only [initialBoard, setCell]
  split_ifs <;> first | rfl | (exfalso; omega)

/-- C17. On the board of `initGame` with Black to move, the move `(2, 3)` is
accepted, its flips are exactly `[(3, 3)]`, the resulting board has 4 Black
discs and 1 White disc, the next mover is White, and `getValidMoves(WHITE)` on
the resulting board is non-empty. -/
theorem opening_move (s : State) :
    (initGame s).currentPlayer = BLACK ∧
    isValidMove (initGame s).board 2 3 (initGame s).currentPlayer = true ∧
    (handleMoveBegin (initGame s) 2 3).map Prod.snd = some [⟨3, 3⟩] ∧
    calculateFlips (initGame s).board 2 3 BLACK = [⟨3, 3⟩] ∧
    discCount (handleMove (initGame s) 2 3).1.board BLACK = 4 ∧
    discCount (handleMove (initGame s) 2 3).1.board WHITE = 1 ∧
    (handleMove (initGame s) 2 3).1.scoreBlack = 4 ∧
    (handleMove (initGame s) 2 3).1.scoreWhite = 1 ∧
    (handleMove (initGame s) 2 3).1.currentPlayer = WHITE ∧
    (handleMove (initGame s) 2 3).1.gameActive = true ∧
    getValidMoves (handleMove (initGame s) 2 3).1.board WHITE = [⟨2, 2⟩, ⟨2, 4⟩, ⟨4, 2⟩] ∧
    getValidMoves (handleMove (initGame s) 2 3).1.board WHITE ≠ [] := by
  have hact : (initGame s).gameActive = true := rfl
  have hidle : (initGame s).isAnimating = false := rfl
  have hr : (0 : Int) ≤ 2 ∧ (2 : Int) < 8 := by decide
  have hc : (0 : Int) ≤ 3 ∧ (3 : Int) < 8 := by decide
  have hflips : calculateFlips (initGame s).board 2 3 BLACK = [⟨3, 3⟩] := by
    show calculateFlips initialBoard 2 3 BLACK = [⟨3, 3⟩]
    decide
  have hv : isValidMove (initGame s).board 2 3 (initGame s).currentPlayer = true := by
    show isValidMove initialBoard 2 3 BLACK = true
    decide
  have hb : (handleMove (initGame s) 2 3).1.board =
      List.foldl (fun b p => setCell b p.r p.c BLACK) (setCell initialBoard 2 3 BLACK)
        (calculateFlips initialBoard 2 3 BLACK) :=
    handleMove_board (initGame s) 2 3 hact hidle hr hc hv
  have hcp : (handleMove (initGame s) 2 3).1.currentPlayer = WHITE :=
    handleMove_currentPlayer (initGame s) 2 3 hact hidle hr hc hv
  have hmoves : getValidMoves (handleMove (initGame s) 2 3).1.board WHITE =
      [⟨2, 2⟩, ⟨2, 4⟩, ⟨4, 2⟩] := by
    rw [hb]; decide
  have hB : discCount (handleMove (initGame s) 2 3).1.board BLACK = 4 := by
    rw [hb]; decide
  have hW : discCount (handleMove (initGame s) 2 3).1.board WHITE = 1 := by
    rw [hb]; decide
  obtain ⟨s3, _, h1, _, hb3, hp3, ha3, _, _, hsb, hsw⟩ :=
    handleMove_eq_check (initGame s) 2 3 hact hidle hr hc hv
  have hm3 : getValidMoves s3.board s3.currentPlayer ≠ [] := by
    rw [hb3, hp3]
    show getValidMoves (handleMove (initGame s) 2 3).1.board WHITE ≠ []
    rw [hmoves]; simp
  have hs3 : (handleMove (initGame s) 2 3).1 = s3 := by
    rw [h1, checkGameOver_moves s3 hm3]
  refine ⟨rfl, hv, ?_, hflips, hB, hW, ?_, ?_, hcp, ?_, hmoves, by rw [hmoves]; simp⟩
  · rw [handleMoveBegin_accepted (initGame s) 2 3 hact hidle hr hc hv]
    show some (calculateFlips initialBoard 2 3 BLACK) = some [⟨3, 3⟩]
    decide
  · rw [hs3, hsb, ← hs3]; exact hB
  · rw [hs3, hsw, ← hs3]; exact hW
  · rw [hs3]; exact ha3

/-! ### The forced-pass window -/

/-- A player without legal moves has no valid in-bounds square. -/
theorem isValidMove_false_of_no_moves (b : Board) (player : Cell)
    (hnone : getValidMoves b player = []) (r c : Int)
    (hr : 0 ≤ r ∧ r < 8) (hc : 0 ≤ c ∧ c < 8) :
    isValidMove b r c player = false := by
  cases h : isValidMove b r c player
  · rfl
  · have hmem : (⟨r, c⟩ : Pos) ∈ getValidMoves b player := by
      rw [getValidMoves_eq, List.mem_filter]
      exact ⟨mem_positions_mk r c hr hc, h⟩
    rw [hnone] at hmem
    simp at hmem

/-- C19. During the forced-pass window, that is, in the state in which
`checkGameOver` has found that the current mover has no legal move while the
other colour has one and has scheduled the pass callback, every `handleMove`
call with an in-bounds position returns at the `isValidMove` guard and leaves
the whole state, in particular the board and the current mover, unchanged; so
does any sequence of such calls, until the pass callback advances the state. -/
theorem forced_pass_window_rejects (s : State)
    (hnone : getValidMoves s.board s.currentPlayer = [])
    (hother : getValidMoves s.board (opponentOf s.currentPlayer) ≠ []) :
    checkGameOver s = (s, false, [Task.pass (opponentOf s.currentPlayer)]) ∧
    (∀ r c : Int, (0 ≤ r ∧ r < 8) → (0 ≤ c ∧ c < 8) →
      handleMoveBegin s r c = none ∧ handleMove s r c = (s, []) ∧
        handleMoveCall s r c = (s, [])) ∧
    (∀ calls : List (Int × Int),
      (∀ p ∈ calls, (0 ≤ p.1 ∧ p.1 < 8) ∧ (0 ≤ p.2 ∧ p.2 < 8)) →
      calls.foldl (fun st p => (handleMove st p.1 p.2).1) s = s) ∧
    (passResolve s (opponentOf s.currentPlayer)).currentPlayer = opponentOf s.currentPlayer ∧
    (passResolve s (opponentOf s.currentPlayer)).board = s.board := by
  have hrej : ∀ r c : Int, (0 ≤ r ∧ r < 8) → (0 ≤ c ∧ c < 8) →
      handleMoveBegin s r c = none ∧ handleMove s r c = (s, []) ∧
        handleMoveCall s r c = (s, []) := by
    intro r c hr hc
    have hinv := isValidMove_false_of_no_moves s.board s.currentPlayer hnone r c hr hc
    have hnone' : handleMoveBegin s r c = none := by
      unfold handleMoveBegin
      cases hg : (!s.gameActive || s.isAnimating) <;> simp [hinv]
    exact ⟨hnone', by unfold handleMove; rw [hnone'], by unfold handleMoveCall; rw [hnone']⟩
  refine ⟨checkGameOver_pass s hnone hother, hrej, ?_, rfl, rfl⟩
  intro calls
  induction calls with
  | nil => intro _; rfl
  | cons p calls ih =>
    intro hall
    have hp := hall p (List.mem_cons_self p calls)
    rw [List.foldl_cons, (hrej p.1 p.2 hp.1 hp.2).2.1]
    exact ih (fun q hq => hall q (List.mem_cons_of_mem p hq))

/-- C19 on `passBoard`, after Black's move to `(0, 0)`: White is to move and
has none. -/
theorem forced_pass_window_rejects_witness :
    getValidMoves (handleMove (stateOn passBoard BLACK) 0 0).1.board
      (handleMove (stateOn passBoard BLACK) 0 0).1.currentPlayer = [] ∧
    getValidMoves (handleMove (stateOn passBoard BLACK) 0 0).1.board
      (opponentOf (handleMove (stateOn passBoard BLACK) 0 0).1.currentPlayer) ≠ [] ∧
    handleMove (handleMove (stateOn passBoard BLACK) 0 0).1 2 2 =
      ((handleMove (stateOn passBoard BLACK) 0 0).1, []) :=
  ⟨by decide, by decide,
    ((forced_pass_window_rejects (handleMove (stateOn passBoard BLACK) 0 0).1
      (by decide) (by decide)).2.1 2 2 (by decide) (by decide)).2.1⟩

/-! ### The computer's choice -/

theorem roundHalfEven_le (q : ℚ) (M : Int) (h : q ≤ (M : ℚ)) : roundHalfEven q ≤ M := by
  have hf : (Int.floor q : ℚ) ≤ q := Int.floor_le q
  have hfM : Int.floor q ≤ M := by
    have : ((Int.floor q : Int) : ℚ) ≤ (M : ℚ) := le_trans hf h
    exact_mod_cast this
  have hstep : 0 < q - (Int.floor q : ℚ) → Int.floor q + 1 ≤ M := by
    intro hpos
    have : ((Int.floor q : Int) : ℚ) < (M : ℚ) := by linarith
    have : Int.floor q < M := by exact_mod_cast this
    omega
  unfold roundHalfEven
  simp only
  split_ifs with h1 h2 h3
  · exact hfM
  · exact hstep (by linarith)
  · exact hfM
  · exact hstep (by linarith)

theorem roundHalfEven_le_pred (q : ℚ) (M : Int) (h : q < (M : ℚ) - 1 / 2) :
    roundHalfEven q ≤ M - 1 := by
  have hf : (Int.floor q : ℚ) ≤ q := Int.floor_le q
  have hfM : Int.floor q ≤ M - 1 := by
    have : ((Int.floor q : Int) : ℚ) < (M : ℚ) := by linarith
    have : Int.floor q < M := by exact_mod_cast this
    omega
  have hstep : 1 / 2 ≤ q - (Int.floor q : ℚ) → Int.floor q + 1 ≤ M - 1 := by
    intro hhalf
    have : ((Int.floor q : Int) : ℚ) + 1 < (M : ℚ) := by linarith
    have : Int.floor q + 1 < M := by exact_mod_cast this
    omega
  unfold roundHalfEven
  simp only
  split_ifs with h1 h2 h3
  · exact hfM
  · exact hstep (by linarith)
  · exact hfM
  · exact hstep (by linarith)

theorem roundHalfEven_nonneg (q : ℚ) (h : 0 ≤ q) : 0 ≤ roundHalfEven q := by
  have hf : 0 ≤ Int.floor q := Int.floor_nonneg.mpr h
  unfold roundHalfEven
  simp only
  split_ifs <;> omega

theorem roundDouble_nonneg (x : ℚ) : 0 ≤ roundDouble x := by
  unfold roundDouble
  split_ifs with h
  · exact le_refl 0
  · have hx : 0 < x := lt_of_not_le h
    have hu : (0 : ℚ) < (2 : ℚ) ^ ulpExp x := zpow_pos (by norm_num) _
    have hq : 0 ≤ x / (2 : ℚ) ^ ulpExp x := div_nonneg (le_of_lt hx) (le_of_lt hu)
    have := roundHalfEven_nonneg _ hq
    exact mul_nonneg (by exact_mod_cast this) (le_of_lt hu)


/-- A binary64 number below 1 is at most `1 - 2^-53`. -/
theorem double_lt_one (rnd : ℚ) (hd : IsDouble rnd) (h1 : rnd < 1) :
    rnd ≤ 1 - 1 / 2 ^ 53 := by
  obtain ⟨m, e, hm, _, _, rfl⟩ := hd
  have hm' : (m : ℚ) ≤ 2 ^ 53 - 1 := by
    have : m + 1 ≤ 2 ^ 53 := hm
    have : ((m + 1 : Nat) : ℚ) ≤ ((2 ^ 53 : Nat) : ℚ) := by exact_mod_cast this
    push_cast at this
    linarith
  have hm0 : (0 : ℚ) ≤ (m : ℚ) := Nat.cast_nonneg m
  by_cases he : 0 ≤ e
  · -- a non-negative exponent: the value is an integer, so it is 0
    have hu : (1 : ℚ) ≤ (2 : ℚ) ^ e := one_le_zpow₀ (by norm_num) he
    have hmz : m = 0 := by
      by_contra hne
      have h1m : (1 : ℚ) ≤ (m : ℚ) := by exact_mod_cast Nat.one_le_iff_ne_zero.mpr hne
      have : (1 : ℚ) ≤ (m : ℚ) * (2 : ℚ) ^ e := by
        calc (1 : ℚ) = 1 * 1 := by ring
          _ ≤ (m : ℚ) * (2 : ℚ) ^ e := mul_le_mul h1m hu (by norm_num) hm0
      linarith
    subst hmz
    norm_num
  · obtain ⟨j, hj⟩ : ∃ j : Nat, e = -(j : Int) := ⟨(-e).toNat, by omega⟩
    subst hj
    have hP : (0 : ℚ) < (2 : ℚ) ^ j := pow_pos (by norm_num) j
    rw [zpow_neg, zpow_natCast] at h1 ⊢
    have hlt : (m : ℚ) < (2 : ℚ) ^ j := by
      have := mul_lt_mul_of_pos_right h1 hP
      rwa [mul_assoc, inv_mul_cancel₀ (ne_of_gt hP), mul_one, one_mul] at this
    by_cases hj53 : j ≤ 53
    · -- the numerator is at most 2^j - 1 and 2^j ≤ 2^53
      have hmj : (m : ℚ) ≤ (2 : ℚ) ^ j - 1 := by
        have : m < 2 ^ j := by exact_mod_cast hlt
        have : m + 1 ≤ 2 ^ j := this
        have : ((m + 1 : Nat) : ℚ) ≤ ((2 ^ j : Nat) : ℚ) := by exact_mod_cast this
        push_cast at this
        linarith
      have hPle : (2 : ℚ) ^ j ≤ 2 ^ 53 := pow_le_pow_right₀ (by norm_num) hj53
      have hinv : (1 : ℚ) / 2 ^ 53 ≤ ((2 : ℚ) ^ j)⁻¹ := by
        rw [one_div]
        exact inv_anti₀ hP hPle
      have : (m : ℚ) * ((2 : ℚ) ^ j)⁻¹ ≤ ((2 : ℚ) ^ j - 1) * ((2 : ℚ) ^ j)⁻¹ :=
        mul_le_mul_of_nonneg_right hmj (le_of_lt (inv_pos.mpr hP))
      have hexp : ((2 : ℚ) ^ j - 1) * ((2 : ℚ) ^ j)⁻¹ = 1 - ((2 : ℚ) ^ j)⁻¹ := by
        rw [sub_mul, mul_inv_cancel₀ (ne_of_gt hP), one_mul]
      linarith
    · -- the spacing is below 2^-53 and the numerator below 2^53
      have hPge : (2 : ℚ) ^ 54 ≤ (2 : ℚ) ^ j := pow_le_pow_right₀ (by norm_num) (by omega)
      have hinv : ((2 : ℚ) ^ j)⁻¹ ≤ ((2 : ℚ) ^ 54)⁻¹ := inv_anti₀ (by norm_num) hPge
      have : (m : ℚ) * ((2 : ℚ) ^ j)⁻¹ ≤ (2 ^ 53 - 1) * ((2 : ℚ) ^ 54)⁻¹ :=
        mul_le_mul hm' hinv (le_of_lt (inv_pos.mpr hP)) (by norm_num)
      have : (2 ^ 53 - 1) * ((2 : ℚ) ^ 54)⁻¹ ≤ 1 - 1 / 2 ^ 53 := by norm_num
      linarith

/-- Rounding `x ≤ n (1 - 2^-53)` to binary64 stays below the integer `n < 2^53`. -/
theorem roundDouble_lt (x : ℚ) (n : Nat) (hn : 0 < n) (hn53 : n < 2 ^ 53)
    (hx : x ≤ (n : ℚ) * (1 - 1 / 2 ^ 53)) : roundDouble x < (n : ℚ) := by
  have hnq : (1 : ℚ) ≤ (n : ℚ) := by exact_mod_cast hn
  unfold roundDouble
  split_ifs with h0
  · linarith
  · have hxpos : 0 < x := lt_of_not_le h0
    have hxn : x < (n : ℚ) := by
      have : (n : ℚ) * (1 - 1 / 2 ^ 53) < (n : ℚ) := by
        have : (0 : ℚ) < (n : ℚ) * (1 / 2 ^ 53) := by positivity
        linarith
      linarith
    have hlog : Int.log 2 x < 53 := by
      apply (Int.lt_zpow_iff_log_lt (b := 2) (by norm_num) hxpos).mp
      have : (n : ℚ) < 2 ^ 53 := by exact_mod_cast hn53
      have h53 : ((2 : Nat) : ℚ) ^ (53 : Int) = 2 ^ 53 := by norm_num
      rw [h53]
      linarith
    have hlow : ((2 : Nat) : ℚ) ^ Int.log 2 x ≤ x := Int.zpow_log_le_self (by norm_num) hxpos
    obtain ⟨k, hk⟩ : ∃ k : Nat, ulpExp x = -(k : Int) := by
      refine ⟨(-(ulpExp x)).toNat, ?_⟩
      unfold ulpExp
      omega
    have hP : (0 : ℚ) < (2 : ℚ) ^ k := pow_pos (by norm_num) k
    rw [hk, zpow_neg, zpow_natCast, div_eq_mul_inv, inv_inv]
    have hprod : x * (2 : ℚ) ^ k ≤ (n : ℚ) * (2 : ℚ) ^ k - (n : ℚ) * (2 : ℚ) ^ k / 2 ^ 53 := by
      have := mul_le_mul_of_nonneg_right hx (le_of_lt hP)
      have e : (n : ℚ) * (1 - 1 / 2 ^ 53) * (2 : ℚ) ^ k =
          (n : ℚ) * (2 : ℚ) ^ k - (n : ℚ) * (2 : ℚ) ^ k / 2 ^ 53 := by ring
      linarith
    have hround : roundHalfEven (x * (2 : ℚ) ^ k) ≤ (n : Int) * 2 ^ k - 1 := by
      by_cases hk53 : 53 ≤ k
      · have hPge : (2 : ℚ) ^ 53 ≤ (2 : ℚ) ^ k := pow_le_pow_right₀ (by norm_num) hk53
        have hone : (1 : ℚ) ≤ (n : ℚ) * (2 : ℚ) ^ k / 2 ^ 53 := by
          rw [le_div_iff₀ (by norm_num)]
          calc (1 : ℚ) * 2 ^ 53 = 1 * 2 ^ 53 := rfl
            _ ≤ (n : ℚ) * (2 : ℚ) ^ k := mul_le_mul hnq hPge (by norm_num) (by linarith)
        apply roundHalfEven_le
        push_cast
        linarith
      · have hkk : k ≤ 52 := by omega
        have hL : Int.log 2 x = ((52 - k : Nat) : Int) := by
          unfold ulpExp at hk
          omega
        rw [hL, zpow_natCast] at hlow
        have hlow' : (2 : ℚ) ^ (52 - k) < (n : ℚ) := by
          have : ((2 : Nat) : ℚ) = 2 := by norm_num
          rw [this] at hlow
          linarith
        have hpow : (2 : ℚ) ^ (52 - k) * (2 : ℚ) ^ k = 2 ^ 52 := by
          rw [← pow_add]
          congr 1
          omega
        have hbig : (2 : ℚ) ^ 52 < (n : ℚ) * (2 : ℚ) ^ k := by
          rw [← hpow]
          exact mul_lt_mul_of_pos_right hlow' hP
        have hhalf : (1 : ℚ) / 2 < (n : ℚ) * (2 : ℚ) ^ k / 2 ^ 53 := by
          rw [lt_div_iff₀ (by norm_num)]
          have : (1 : ℚ) / 2 * 2 ^ 53 = 2 ^ 52 := by norm_num
          rw [this]
          exact hbig
        have := roundHalfEven_le_pred (x * (2 : ℚ) ^ k) ((n : Int) * 2 ^ k) (by
          push_cast
          linarith)
        exact this
    have hroundq : (roundHalfEven (x * (2 : ℚ) ^ k) : ℚ) ≤ (n : ℚ) * (2 : ℚ) ^ k - 1 := by
      have : ((roundHalfEven (x * (2 : ℚ) ^ k) : Int) : ℚ) ≤
          (((n : Int) * 2 ^ k - 1 : Int) : ℚ) := by exact_mod_cast hround
      push_cast at this
      exact this
    have hinv : (0 : ℚ) < ((2 : ℚ) ^ k)⁻¹ := inv_pos.mpr hP
    calc (roundHalfEven (x * (2 : ℚ) ^ k) : ℚ) * ((2 : ℚ) ^ k)⁻¹
        ≤ ((n : ℚ) * (2 : ℚ) ^ k - 1) * ((2 : ℚ) ^ k)⁻¹ :=
          mul_le_mul_of_nonneg_right hroundq (le_of_lt hinv)
      _ = (n : ℚ) - ((2 : ℚ) ^ k)⁻¹ := by
          rw [sub_mul, mul_assoc, mul_inv_cancel₀ (ne_of_gt hP), mul_one, one_mul]
      _ < (n : ℚ) := by linarith

/-- The index `Math.floor(Math.random() * n)` is below `n`. -/
theorem randomIndex_lt (rnd : ℚ) (n : Nat) (hd : IsDouble rnd) (h1 : rnd < 1)
    (hn : 0 < n) (hn53 : n < 2 ^ 53) : randomIndex rnd n < n := by
  unfold randomIndex
  have hle := double_lt_one rnd hd h1
  have hnq : (0 : ℚ) ≤ (n : ℚ) := Nat.cast_nonneg n
  have hx : rnd * (n : ℚ) ≤ (n : ℚ) * (1 - 1 / 2 ^ 53) := by
    rw [mul_comm]
    exact mul_le_mul_of_nonneg_left hle hnq
  have hlt := roundDouble_lt (rnd * (n : ℚ)) n hn hn53 hx
  have hfl : Int.floor (roundDouble (rnd * (n : ℚ))) < (n : Int) := Int.floor_lt.mpr (by exact_mod_cast hlt)
  have hf0 : 0 ≤ Int.floor (roundDouble (rnd * (n : ℚ))) :=
    Int.floor_nonneg.mpr (roundDouble_nonneg _)
  omega


/-- At `Math.random() = 0.3333333333333333` (the binary64 number
`6004799503160661 / 2^54`) and `n = 3` the exact product `1 - 2^-54` is a tie
that rounds up to `1`, so the index is `1`. -/
theorem randomIndex_third : randomIndex (6004799503160661 / 2 ^ 54) 3 = 1 := by
  have hx : (6004799503160661 / 2 ^ 54 : ℚ) * ((3 : Nat) : ℚ) = 1 - 1 / 2 ^ 54 := by norm_num
  have hpos : (0 : ℚ) < 1 - 1 / 2 ^ 54 := by norm_num
  have hlog : Int.log 2 (1 - 1 / 2 ^ 54 : ℚ) = -1 := by
    have h1 : (-1 : Int) ≤ Int.log 2 (1 - 1 / 2 ^ 54 : ℚ) :=
      (Int.zpow_le_iff_le_log (b := 2) (by norm_num) hpos).mp (by norm_num)
    have h2 : Int.log 2 (1 - 1 / 2 ^ 54 : ℚ) < 0 :=
      (Int.lt_zpow_iff_log_lt (b := 2) (by norm_num) hpos).mp (by norm_num)
    omega
  have hulp : ulpExp (1 - 1 / 2 ^ 54 : ℚ) = -53 := by
    unfold ulpExp
    rw [hlog]
    decide
  have hq : (1 - 1 / 2 ^ 54 : ℚ) / (2 : ℚ) ^ (-53 : Int) = 2 ^ 53 - 1 / 2 := by
    rw [zpow_neg]
    norm_num
  have hfloor : Int.floor (2 ^ 53 - 1 / 2 : ℚ) = 2 ^ 53 - 1 := by
    rw [Int.floor_eq_iff]
    constructor <;> norm_num
  have hround : roundHalfEven (2 ^ 53 - 1 / 2 : ℚ) = 2 ^ 53 := by
    unfold roundHalfEven
    simp only [hfloor]
    norm_num
  have hdouble : roundDouble (1 - 1 / 2 ^ 54 : ℚ) = 1 := by
    unfold roundDouble
    rw [if_neg (not_le.mpr hpos), hulp, hq, hround, zpow_neg]
    norm_num
  unfold randomIndex
  rw [hx, hdouble]
  norm_num

theorem getValidMoves_length_le (b : Board) (player : Cell) :
    (getValidMoves b player).length ≤ 64 := by
  rw [getValidMoves_eq]
  exact le_trans (List.length_filter_le _ _) (by decide)

theorem get?_of_lt {l : List Pos} {i : Nat} (h : i < l.length) :
    ∃ m, l.get? i = some m ∧ m ∈ l :=
  ⟨l.get ⟨i, h⟩, List.get?_eq_get h, List.get_mem l i h⟩

theorem foldl_max_ge : ∀ (l : List Nat) (init : Nat),
    init ≤ l.foldl max init ∧ ∀ x ∈ l, x ≤ l.foldl max init := by
  intro l
  induction l with
  | nil => intro init; simp
  | cons a l ih =>
    intro init
    obtain ⟨h1, h2⟩ := ih (max init a)
    rw [List.foldl_cons]
    refine ⟨le_trans (le_max_left init a) h1, ?_⟩
    intro x hx
    rcases List.mem_cons.mp hx with e | e
    · subst e; exact le_trans (le_max_right init x) h1
    · exact h2 x e

theorem foldl_max_mem : ∀ (l : List Nat) (init : Nat),
    l.foldl max init = init ∨ l.foldl max init ∈ l := by
  intro l
  induction l with
  | nil => intro init; simp
  | cons a l ih =>
    intro init
    rw [List.foldl_cons]
    rcases ih (max init a) with h | h
    · rw [h]
      rcases le_total init a with hle | hle
      · right; rw [max_eq_right hle]; exact List.mem_cons_self a l
      · left; exact max_eq_left hle
    · right; exact List.mem_cons_of_mem a h

/-- The first element of a filter: the first element of the list that passes. -/
theorem filter_first (p : Pos → Bool) :
    ∀ l : List Pos, (∃ x ∈ l, p x = true) →
      ∃ m l1 l2, l = l1 ++ m :: l2 ∧ p m = true ∧ (∀ x ∈ l1, p x = false) ∧
        (l.filter p).get? 0 = some m := by
  intro l
  induction l with
  | nil => rintro ⟨x, hx, _⟩; simp at hx
  | cons a l ih =>
    rintro ⟨x, hx, hpx⟩
    by_cases ha : p a = true
    · exact ⟨a, [], l, rfl, ha, by simp, by simp [List.filter_cons, ha]⟩
    · have hxl : x ∈ l := by
        rcases List.mem_cons.mp hx with e | e
        · subst e; exact absurd hpx ha
        · exact e
      obtain ⟨m, l1, l2, hl, hm, hbefore, hget⟩ := ih ⟨x, hxl, hpx⟩
      refine ⟨m, a :: l1, l2, by rw [hl]; rfl, hm, ?_, by simpa [List.filter_cons, ha] using hget⟩
      intro y hy
      rcases List.mem_cons.mp hy with e | e
      · subst e; simpa using ha
      · exact hbefore y e

/-- Whatever `chooseMove` picks is one of the moves it was given. -/
theorem chooseMove_mem (s : State) (rnd : ℚ) (moves : List Pos) (m : Pos)
    (h : chooseMove s rnd moves = some m) : m ∈ moves := by
  unfold chooseMove at h
  simp only at h
  split_ifs at h
  · exact List.get?_mem h
  · exact (List.mem_filter.mp (List.get?_mem h)).1
  · exact (List.mem_filter.mp (List.get?_mem h)).1

/-- With the game active and a move chosen, `computerTurn` calls `handleMove`
on it. -/
theorem computerTurn_eq (s : State) (rnd : ℚ) (m : Pos) (hact : s.gameActive = true)
    (hmoves : getValidMoves s.board WHITE ≠ [])
    (hm : chooseMove s rnd (getValidMoves s.board WHITE) = some m) :
    computerTurn s rnd = handleMoveCall s m.r m.c := by
  unfold computerTurn
  have hlen : ¬ (getValidMoves s.board WHITE).length = 0 := by
    intro h; exact hmoves (List.length_eq_zero.mp h)
  simp only [hact, Bool.not_true, Bool.false_eq_true, if_false, hlen, hm]

/-- The greedy-corner choice when some move is a corner. -/
theorem chooseMove_corner (s : State) (rnd : ℚ) (moves : List Pos)
    (hpolicy : s.rdoBasic = false) (hd : IsDouble rnd) (h1 : rnd < 1)
    (hlen : moves.length ≤ 64)
    (hcorner : ∃ x ∈ moves, isCorner x = true) :
    ∃ m, chooseMove s rnd moves = some m ∧ m ∈ moves ∧ isCorner m = true := by
  obtain ⟨x, hx, hxc⟩ := hcorner
  have hpos : 0 < (moves.filter isCorner).length :=
    List.length_pos_of_mem (List.mem_filter.mpr ⟨hx, hxc⟩)
  have hsmall : (moves.filter isCorner).length < 2 ^ 53 :=
    lt_of_le_of_lt (le_trans (List.length_filter_le _ _) hlen) (by norm_num)
  obtain ⟨m, hget, hmem⟩ := get?_of_lt (randomIndex_lt rnd _ hd h1 hpos hsmall)
  refine ⟨m, ?_, (List.mem_filter.mp hmem).1, (List.mem_filter.mp hmem).2⟩
  unfold chooseMove
  simp only [hpolicy, Bool.false_eq_true, if_false, gt_iff_lt, hpos, if_true, hget]

/-- The greedy-corner choice when no move is a corner: the first move with the
largest number of flips. -/
theorem chooseMove_greedy (s : State) (rnd : ℚ) (moves : List Pos)
    (hpolicy : s.rdoBasic = false) (hne : moves ≠ [])
    (hnocorner : ∀ x ∈ moves, isCorner x = false) :
    ∃ m l1 l2, chooseMove s rnd moves = some m ∧ moves = l1 ++ m :: l2 ∧
      (∀ x ∈ l1, (calculateFlips s.board x.r x.c WHITE).length <
        (calculateFlips s.board m.r m.c WHITE).length) ∧
      (∀ x ∈ moves, (calculateFlips s.board x.r x.c WHITE).length ≤
        (calculateFlips s.board m.r m.c WHITE).length) := by
  have hcorners : moves.filter isCorner = [] := by
    rw [List.filter_eq_nil_iff]
    intro x hx
    simp [hnocorner x hx]
  have hge := foldl_max_ge (moves.map (fun m : Pos => (calculateFlips s.board m.r m.c WHITE).length)) 0
  have hattained : ∃ x ∈ moves, decide ((calculateFlips s.board x.r x.c WHITE).length =
      (moves.map (fun m : Pos => (calculateFlips s.board m.r m.c WHITE).length)).foldl max 0)
        = true := by
    rcases foldl_max_mem
      (moves.map (fun m : Pos => (calculateFlips s.board m.r m.c WHITE).length)) 0 with h | h
    · obtain ⟨a, l, rfl⟩ := List.exists_cons_of_ne_nil hne
      refine ⟨a, List.mem_cons_self a l, ?_⟩
      have := hge.2 ((calculateFlips s.board a.r a.c WHITE).length)
        (List.mem_map.mpr ⟨a, List.mem_cons_self a l, rfl⟩)
      rw [h] at this ⊢
      simp only [decide_eq_true_eq]
      omega
    · obtain ⟨x, hx, hxe⟩ := List.mem_map.mp h
      exact ⟨x, hx, by simpa using hxe⟩
  obtain ⟨m, l1, l2, hl, hm, hbefore, hget⟩ := filter_first _ moves hattained
  simp only [decide_eq_true_eq] at hm
  refine ⟨m, l1, l2, ?_, hl, ?_, ?_⟩
  · unfold chooseMove
    simp only [hpolicy, Bool.false_eq_true, if_false, hcorners, List.length_nil, gt_iff_lt,
      lt_self_iff_false]
    exact hget
  · intro x hx
    have hxm : x ∈ moves := by rw [hl]; exact List.mem_append_left _ hx
    have hle := hge.2 _ (List.mem_map.mpr ⟨x, hxm, rfl⟩)
    have hnot := hbefore x hx
    simp only [decide_eq_false_iff_not] at hnot
    rw [hm]
    omega
  · intro x hx
    rw [hm]
    exact hge.2 _ (List.mem_map.mpr ⟨x, hx, rfl⟩)

theorem isCorner_iff (m : Pos) :
    isCorner m = true ↔ (m.r = 0 ∨ m.r = 7) ∧ (m.c = 0 ∨ m.c = 7) := by
  simp [isCorner]

/-- C12. Under the greedy-corner policy, for every board on which White has at
least one legal move and every binary64 value of `Math.random()` in `[0, 1)`,
with the index `Math.floor(Math.random() * n)` computed in binary64
arithmetic: if some legal move is
a corner, the move `computerTurn` passes to `handleMove` is one of the legal
corner moves, whatever the flip counts of the other moves; otherwise it is the
first move, in the order of `getValidMoves(WHITE)`, whose flip count
`calculateFlips(...).length` is the maximum over all legal moves. -/
theorem greedy_corner_choice (s : State) (rnd : ℚ)
    (hact : s.gameActive = true) (hpolicy : s.rdoBasic = false)
    (hmoves : getValidMoves s.board WHITE ≠ [])
    (hd : IsDouble rnd) (_h0 : 0 ≤ rnd) (h1 : rnd < 1) :
    ((∃ x ∈ getValidMoves s.board WHITE, (x.r = 0 ∨ x.r = 7) ∧ (x.c = 0 ∨ x.c = 7)) →
      ∃ m, chooseMove s rnd (getValidMoves s.board WHITE) = some m ∧
        computerTurn s rnd = handleMoveCall s m.r m.c ∧
        m ∈ getValidMoves s.board WHITE ∧ (m.r = 0 ∨ m.r = 7) ∧ (m.c = 0 ∨ m.c = 7)) ∧
    ((¬ ∃ x ∈ getValidMoves s.board WHITE, (x.r = 0 ∨ x.r = 7) ∧ (x.c = 0 ∨ x.c = 7)) →
      ∃ m l1 l2, chooseMove s rnd (getValidMoves s.board WHITE) = some m ∧
        computerTurn s rnd = handleMoveCall s m.r m.c ∧
        getValidMoves s.board WHITE = l1 ++ m :: l2 ∧
        (∀ x ∈ l1, (calculateFlips s.board x.r x.c WHITE).length <
          (calculateFlips s.board m.r m.c WHITE).length) ∧
        (∀ x ∈ getValidMoves s.board WHITE, (calculateFlips s.board x.r x.c WHITE).length ≤
          (calculateFlips s.board m.r m.c WHITE).length)) := by
  constructor
  · rintro ⟨x, hx, hxc⟩
    obtain ⟨m, hm, hmem, hmc⟩ := chooseMove_corner s rnd _ hpolicy hd h1
      (getValidMoves_length_le s.board WHITE) ⟨x, hx, (isCorner_iff x).mpr hxc⟩
    exact ⟨m, hm, computerTurn_eq s rnd m hact hmoves hm, hmem, (isCorner_iff m).mp hmc⟩
  · intro hno
    have hnocorner : ∀ x ∈ getValidMoves s.board WHITE, isCorner x = false := by
      intro x hx
      cases hc : isCorner x
      · rfl
      · exact absurd ⟨x, hx, (isCorner_iff x).mp hc⟩ hno
    obtain ⟨m, l1, l2, hm, hl, hlt, hle⟩ := chooseMove_greedy s rnd _ hpolicy hmoves hnocorner
    exact ⟨m, l1, l2, hm, computerTurn_eq s rnd m hact hmoves hm, hl, hlt, hle⟩

/-- C12 on `cornerBoard`: the corner `(0, 0)` is legal for White, so a corner
is chosen although `(2, 0)` flips more. -/
theorem greedy_corner_choice_witness :
    (⟨0, 0⟩ : Pos) ∈ getValidMoves (stateOn cornerBoard WHITE).board WHITE ∧
    (calculateFlips (stateOn cornerBoard WHITE).board 0 0 WHITE).length <
      (calculateFlips (stateOn cornerBoard WHITE).board 2 0 WHITE).length ∧
    ∃ m, chooseMove (stateOn cornerBoard WHITE) 0
          (getValidMoves (stateOn cornerBoard WHITE).board WHITE) = some m ∧
      computerTurn (stateOn cornerBoard WHITE) 0 =
        handleMoveCall (stateOn cornerBoard WHITE) m.r m.c ∧
      m ∈ getValidMoves (stateOn cornerBoard WHITE).board WHITE ∧
      (m.r = 0 ∨ m.r = 7) ∧ (m.c = 0 ∨ m.c = 7) :=
  ⟨by decide, by decide,
    (greedy_corner_choice (stateOn cornerBoard WHITE) 0 (by decide) (by decide) (by decide)
      ⟨0, 0, by norm_num, by norm_num, by norm_num, by norm_num⟩
      (le_refl 0) zero_lt_one).1 ⟨⟨0, 0⟩, by decide, by decide⟩⟩

/-- C13. For every board on which White has at least one legal move, under
either policy and for every binary64 value of `Math.random()` in `[0, 1)`, with
the index `Math.floor(Math.random() * n)` computed in binary64 arithmetic,
`computerTurn` (game active) chooses exactly one position, never `undefined`,
that position is a member of `getValidMoves(WHITE)`, and it is the position
passed to `handleMove`. -/
theorem computerTurn_selects_legal (s : State) (rnd : ℚ)
    (hact : s.gameActive = true)
    (hmoves : getValidMoves s.board WHITE ≠ [])
    (hd : IsDouble rnd) (_h0 : 0 ≤ rnd) (h1 : rnd < 1) :
    ∃ m, chooseMove s rnd (getValidMoves s.board WHITE) = some m ∧
      m ∈ getValidMoves s.board WHITE ∧
      computerTurn s rnd = handleMoveCall s m.r m.c := by
  have hsome : ∃ m, chooseMove s rnd (getValidMoves s.board WHITE) = some m := by
    cases hpolicy : s.rdoBasic
    · by_cases hcorner : ∃ x ∈ getValidMoves s.board WHITE, isCorner x = true
      · obtain ⟨m, hm, _⟩ := chooseMove_corner s rnd _ hpolicy hd h1
          (getValidMoves_length_le s.board WHITE) hcorner
        exact ⟨m, hm⟩
      · have hnocorner : ∀ x ∈ getValidMoves s.board WHITE, isCorner x = false := by
          intro x hx
          cases hc : isCorner x
          · rfl
          · exact absurd ⟨x, hx, hc⟩ hcorner
        obtain ⟨m, _, _, hm, _⟩ := chooseMove_greedy s rnd _ hpolicy hmoves hnocorner
        exact ⟨m, hm⟩
    · obtain ⟨m, hget, _⟩ := get?_of_lt
        (randomIndex_lt rnd _ hd h1 (List.length_pos.mpr hmoves)
          (lt_of_le_of_lt (getValidMoves_length_le s.board WHITE) (by norm_num)))
      refine ⟨m, ?_⟩
      unfold chooseMove
      simp only [hpolicy, if_true, hget]
  obtain ⟨m, hm⟩ := hsome
  exact ⟨m, hm, chooseMove_mem s rnd _ m hm, computerTurn_eq s rnd m hact hmoves hm⟩

/-- C13 after Black's opening move `(2, 3)`, basic policy, random value `1/2`. -/
theorem computerTurn_selects_legal_witness :
    getValidMoves (handleMove (initialState true true) 2 3).1.board WHITE ≠ [] ∧
    ∃ m, chooseMove (handleMove (initialState true true) 2 3).1 (1 / 2)
          (getValidMoves (handleMove (initialState true true) 2 3).1.board WHITE) = some m ∧
      m ∈ getValidMoves (handleMove (initialState true true) 2 3).1.board WHITE ∧
      computerTurn (handleMove (initialState true true) 2 3).1 (1 / 2) =
        handleMoveCall (handleMove (initialState true true) 2 3).1 m.r m.c :=
  ⟨by decide,
    computerTurn_selects_legal (handleMove (initialState true true) 2 3).1 (1 / 2)
      (by decide) (by decide)
      ⟨1, -1, by norm_num, by norm_num, by norm_num, by norm_num⟩
      (by norm_num) (by norm_num)⟩

/-! ### A scheduled `computerTurn` and a restart -/

theorem handleMoveCall_rejected (s : State) (r c : Int)
    (h : isValidMove s.board r c s.currentPlayer = false) :
    handleMoveCall s r c = (s, []) := by
  have hnone : handleMoveBegin s r c = none := by
    unfold handleMoveBegin
    cases hg : (!s.gameActive || s.isAnimating) <;> simp [h]
  unfold handleMoveCall
  rw [hnone]

/-- C11, the claim as stated fails. With the computer enabled, Black's move
`(2, 3)` schedules `computerTurn`; `initGame` then replaces the game and Black
plays `(2, 3)` in the new game; when the call scheduled in the old game fires,
it puts a White disc on the empty square `(2, 2)` of the new game and sets its
lock. -/
theorem stale_computerTurn_plays :
    (handleMove (initialState true false) 2 3).2 = [Task.computerTurn] ∧
    (handleMove (initGame (handleMove (initialState true false) 2 3).1) 2 3).1.board 2 2
      = EMPTY ∧
    (runTask (handleMove (initGame (handleMove (initialState true false) 2 3).1) 2 3).1 0
      Task.computerTurn).1.board 2 2 = WHITE ∧
    (handleMove (initGame (handleMove (initialState true false) 2 3).1) 2 3).1.isAnimating
      = false ∧
    (runTask (handleMove (initGame (handleMove (initialState true false) 2 3).1) 2 3).1 0
      Task.computerTurn).1.isAnimating = true := by
  refine ⟨by decide, by decide, by decide, by decide, by decide⟩

/-- C11, as the code has it. If `initGame` replaces the game before a scheduled
`computerTurn` call fires and the new game is still in the state `initGame`
produced when the call fires, the call is a no-op, for every random value and
either policy: none of White's legal moves on the initial board is legal for
Black, who is to move, so `handleMove` rejects the chosen move; the board, the
current mover and the game status are unchanged. -/
theorem stale_computerTurn_on_fresh_game (s : State) (rnd : ℚ) :
    runTask (initGame s) rnd Task.computerTurn = (initGame s, []) ∧
    computerTurn (initGame s) rnd = (initGame s, []) := by
  have hmoves : getValidMoves (initGame s).board WHITE = [⟨2, 4⟩, ⟨3, 5⟩, ⟨4, 2⟩, ⟨5, 3⟩] := by
    show getValidMoves initialBoard WHITE = [⟨2, 4⟩, ⟨3, 5⟩, ⟨4, 2⟩, ⟨5, 3⟩]
    decide
  have hrej : ∀ m ∈ ([⟨2, 4⟩, ⟨3, 5⟩, ⟨4, 2⟩, ⟨5, 3⟩] : List Pos),
      isValidMove initialBoard m.r m.c BLACK = false := by
    decide
  have key : computerTurn (initGame s) rnd = (initGame s, []) := by
    unfold computerTurn
    have hact : (initGame s).gameActive = true := rfl
    simp only [hact, Bool.not_true, Bool.false_eq_true, if_false, hmoves]
    simp only [List.length_cons, List.length_nil]
    rw [if_neg (by omega)]
    cases hm : chooseMove (initGame s) rnd [⟨2, 4⟩, ⟨3, 5⟩, ⟨4, 2⟩, ⟨5, 3⟩] with
    | none => rfl
    | some m =>
      simp only
      exact handleMoveCall_rejected (initGame s) m.r m.c
        (hrej m (chooseMove_mem (initGame s) rnd _ m hm))
  exact ⟨key, key⟩

/-! ### The flip theorems at the opening position -/

/-- C14 at the opening position: Black's disc on `(2, 3)`. -/
theorem calculateFlips_after_placement_witness :
    ((0 : Int) ≤ 2 ∧ (2 : Int) < 8) ∧ ((0 : Int) ≤ 3 ∧ (3 : Int) < 8) ∧
    calculateFlips (setCell initialBoard 2 3 BLACK) 2 3 BLACK =
      calculateFlips initialBoard 2 3 BLACK :=
  ⟨by decide, by decide,
    (calculateFlips_after_placement initialBoard 2 3 BLACK (by decide) (by decide)).1⟩

/-- C15 at the opening position: the flip `(3, 3)` of Black's move `(2, 3)`. -/
theorem calculateFlips_only_opponent_witness :
    (⟨3, 3⟩ : Pos) ∈ calculateFlips initialBoard 2 3 BLACK ∧
    initialBoard 3 3 = opponentOf BLACK ∧ initialBoard 3 3 ≠ BLACK ∧ initialBoard 3 3 ≠ EMPTY :=
  ⟨by decide,
    (calculateFlips_only_opponent initialBoard 2 3 BLACK (by decide) (by decide)
      ⟨3, 3⟩ (by decide)).2⟩

/-- C20 at the opening position: Black's scan of `(2, 3)`. -/
theorem calculateFlips_distinct_witness :
    ((0 : Int) ≤ 2 ∧ (2 : Int) < 8) ∧ ((0 : Int) ≤ 3 ∧ (3 : Int) < 8) ∧
    (calculateFlips initialBoard 2 3 BLACK).Nodup ∧
    (⟨2, 3⟩ : Pos) ∉ calculateFlips initialBoard 2 3 BLACK :=
  ⟨by decide, by decide,
    (calculateFlips_distinct initialBoard 2 3 BLACK (by decide) (by decide)).1,
    (calculateFlips_distinct initialBoard 2 3 BLACK (by decide) (by decide)).2.1⟩

end Reversi
